import Mathlib

/-!
# Redis job worker (`pkg/worker/redis.go`)

A shallow embedding of `RedisWorker`: the job model, the gob payload that
`Enqueue` writes and `fetchJob` reads, the Redis list behind `LPush`/`BLPop`,
the sequential bodies of `RegisterHandler`, `Enqueue`, `fetchJob`,
`processJob`, `Stats`, and an interleaving semantics for the goroutines that
`DequeueLoop`, `fetchJob` and `Stop` start or wait for.

Library calls (google/uuid, encoding/gob, go-redis, sync) are modelled by
their documented behaviour; everything the environment decides (entropy,
connection errors) is an explicit argument.
-/

namespace Worker

/-! ## Job model -/

/-- The Go type `uuid.UUID`, an array of 16 bytes. -/
abbrev UUID := List Nat

/-- The value `uuid.Nil`: all sixteen bytes zero. -/
def uuidNil : UUID := List.replicate 16 0

/-- The library call `uuid.NewRandom`: sixteen bytes are read from the entropy
source (`rd` is what the read returned); a failed or short read is an error,
otherwise the version nibble and the variant bits are stamped in. -/
def NewRandom (rd : Except String (List Nat)) : Except String UUID :=
  match rd with
  | .error e => .error e
  | .ok bs =>
    if bs.length = 16 then
      let b6 := (bs.getD 6 0 &&& 0x0f) ||| 0x40
      let b8 := (bs.getD 8 0 &&& 0x3f) ||| 0x80
      .ok ((bs.set 6 b6).set 8 b8)
    else .error "unexpected EOF"

/-- The Go type `JobType`, a string tag. -/
abbrev JobType := String

/-- A non-nil value of the interface type `any`: the name of its concrete type
and the value itself, which the queue never looks into. -/
structure Iface where
  typeName : String
  value : List Nat
deriving DecidableEq, Repr

/-- Modelled from the spec: the declaration of `worker.Job` is not among the
sources; the fields are the five the spec lists (ID, Type, Identity,
AccountID, Args), in that order. `Identity` is opaque to the queue and kept as
a string, `AccountID` is an integer, `Args` is `none` for a nil interface. -/
structure Job where
  ID : UUID
  Typ : JobType
  Identity : String
  AccountID : Int
  Args : Option Iface
deriving DecidableEq, Repr

/-- The zero value `var job Job`. -/
def Job.zero : Job :=
  { ID := uuidNil, Typ := "", Identity := "", AccountID := 0, Args := none }

/-! ## The gob payload -/

/-- What a gob stream written for a `Job` carries: gob does not transmit a
field that holds the zero value of its type, so every field is optional. -/
structure GobJob where
  ID : Option UUID
  Typ : Option JobType
  Identity : Option String
  AccountID : Option Int
  Args : Option Iface
deriving DecidableEq, Repr

/-- An element of the Redis list: either a gob stream for a `Job`, or any
other string, which the decoder rejects. -/
inductive Payload where
  | gob (m : GobJob)
  | raw (s : String)
deriving DecidableEq, Repr

/-- The expression `enc.Encode(&job)`: pointers are flattened, zero fields are
left out, and a non-nil interface value can be sent only when its concrete
type has been registered with `gob.Register`. -/
def gobEncode (registered : List String) (job : Job) : Except String Payload :=
  match job.Args with
  | some a =>
    if a.typeName ∈ registered then
      .ok (.gob
        { ID := if job.ID = uuidNil then none else some job.ID
          Typ := if job.Typ = "" then none else some job.Typ
          Identity := if job.Identity = "" then none else some job.Identity
          AccountID := if job.AccountID = 0 then none else some job.AccountID
          Args := some a })
    else .error ("gob: type not registered for interface: " ++ a.typeName)
  | none =>
    .ok (.gob
      { ID := if job.ID = uuidNil then none else some job.ID
        Typ := if job.Typ = "" then none else some job.Typ
        Identity := if job.Identity = "" then none else some job.Identity
        AccountID := if job.AccountID = 0 then none else some job.AccountID
        Args := none })

/-- The expression `dec.Decode(&job)` on the target `job`: the transmitted
fields are stored into the target in order, the others are left as they are.
A string that is no gob stream is an error and leaves the target untouched; an
interface value whose type name is not registered is an error raised when the
`Args` field is reached, after the fields before it have been stored. -/
def gobDecode (registered : List String) (target : Job) (p : Payload) :
    Job × Option String :=
  match p with
  | .raw _ => (target, some "gob: encoded unsigned integer out of range")
  | .gob m =>
    let j : Job :=
      { ID := m.ID.getD target.ID
        Typ := m.Typ.getD target.Typ
        Identity := m.Identity.getD target.Identity
        AccountID := m.AccountID.getD target.AccountID
        Args := target.Args }
    match m.Args with
    | none => (j, none)
    | some a =>
      if a.typeName ∈ registered then ({ j with Args := some a }, none)
      else (j, some ("gob: name not registered for interface: " ++ a.typeName))

/-! ## Handlers and the worker -/

/-- How a call of a handler ends: it returns, or it panics. (`JobHandler` has
no result value, so a panic is the only failure the worker can see.) -/
inductive Outcome where
  | returned
  | panicked (msg : String)
deriving DecidableEq, Repr

/-- A handler function `func(ctx, job)`: a name standing for the function
value, and how a call on a given job ends. -/
structure JobHandler where
  name : String
  run : Job → Outcome

/-- The struct `RedisWorker`. `queue` is the Redis list stored under
`queueName` (head first), `closed` says whether `closeCh` has been closed,
`pollInterval` is a `time.Duration` (nanoseconds), the wait groups are their
counters, `registered` is gob's process-wide type registry, and `calls`
records every handler invocation (name, job). -/
structure RedisWorker where
  handlers : JobType → Option JobHandler
  registered : List String
  queue : List Payload
  closed : Bool
  pollInterval : Int
  pollMax : Int
  loopWG : Int
  handleWG : Int
  inFlight : Int
  calls : List (String × Job)

/-- The constructor `NewRedisWorker`: no
handlers, an open `closeCh`, zeroed wait groups and counter. The Redis list is
whatever the server holds under the queue name. -/
def NewRedisWorker (queue : List Payload) (pollInterval pollMax : Int) : RedisWorker :=
  { handlers := fun _ => none
    registered := []
    queue := queue
    closed := false
    pollInterval := pollInterval
    pollMax := pollMax
    loopWG := 0
    handleWG := 0
    inFlight := 0
    calls := [] }

/-- The method `RegisterHandler`: `w.handlers[jtype] = handler` and
`gob.Register(args)`, where `argsType` is the concrete type name of `args`. -/
def RegisterHandler (w : RedisWorker) (jtype : JobType) (handler : JobHandler)
    (argsType : String) : RedisWorker :=
  { w with
    handlers := fun t => if t = jtype then some handler else w.handlers t
    registered :=
      if argsType ∈ w.registered then w.registered else argsType :: w.registered }

/-! ## The Redis list -/

/-- The command `LPUSH key value`: with a connection error nothing is written;
otherwise the value is put at the head and the new length is returned. -/
def LPush (connErr : Option String) (list : List Payload) (v : Payload) :
    List Payload × Except String Int :=
  match connErr with
  | some e => (list, .error e)
  | none => (v :: list, .ok ((v :: list).length : Int))

/-- The result of `BLPOP key timeout`: a connection error, `redis.Nil` when the
list stayed empty until the timeout, or the element taken from the head. -/
inductive PopResult where
  | err (e : String)
  | redisNil
  | value (v : Payload)
deriving DecidableEq, Repr

/-- The command `BLPOP key timeout`. -/
def BLPop (connErr : Option String) (list : List Payload) : List Payload × PopResult :=
  match connErr with
  | some e => (list, .err e)
  | none =>
    match list with
    | [] => ([], .redisNil)
    | v :: rest => (rest, .value v)

/-! ## Enqueue -/

/-- What the environment decides during one `Enqueue` call: the outcome of the
entropy read (used only when an ID is generated) and whether the connection
to Redis fails. -/
structure EnqueueEnv where
  rand : Except String (List Nat)
  pushErr : Option String

/-- The result of `Enqueue`: the job behind the pointer after the call, the
worker, and the returned error (`none` for `nil`). -/
structure EnqueueResult where
  job : Job
  w : RedisWorker
  err : Option String

/-- The first statement of `Enqueue`: a job whose ID is `uuid.Nil` gets a
generated one, and a failed generation is the error returned. -/
def assignID (env : EnqueueEnv) (job : Job) : Except String Job :=
  if job.ID = uuidNil then
    match NewRandom env.rand with
    | .error e => .error ("unable to generate UUID: " ++ e)
    | .ok id => .ok { job with ID := id }
  else .ok job

/-- The method `RedisWorker.Enqueue`: the ID, the gob encoding of the job, the
`LPush` of the buffer. -/
def Enqueue (env : EnqueueEnv) (w : RedisWorker) (job : Job) : EnqueueResult :=
  match assignID env job with
  | .error e => { job := job, w := w, err := some e }
  | .ok job1 =>
    match gobEncode w.registered job1 with
    | .error e => { job := job1, w := w, err := some ("unable to encode args: " ++ e) }
    | .ok buffer =>
      match LPush env.pushErr w.queue buffer with
      | (q, .error e) =>
        { job := job1, w := { w with queue := q },
          err := some ("unable to push job into Redis: " ++ e) }
      | (q, .ok _) => { job := job1, w := { w with queue := q }, err := none }

/-! ## fetchJob, processJob, Stats -/

/-- The result of one `fetchJob` call: the worker, and the job handed to
`go w.processJob(ctx, &job)` if that statement was reached. -/
structure FetchResult where
  w : RedisWorker
  dispatched : Option Job

/-- The method `RedisWorker.fetchJob`. A timeout (`redis.Nil`) and a
connection error return early. After the decode the error is only logged:
the wait group, the counter and the `go` statement follow in every case. -/
def fetchJob (connErr : Option String) (w : RedisWorker) : FetchResult :=
  match BLPop connErr w.queue with
  | (q, .redisNil) => { w := { w with queue := q }, dispatched := none }
  | (q, .err _) => { w := { w with queue := q }, dispatched := none }
  | (q, .value res1) =>
    let job := (gobDecode w.registered Job.zero res1).1
    { w := { w with queue := q, handleWG := w.handleWG + 1, inFlight := w.inFlight + 1 },
      dispatched := some job }

/-- How a function body ends. -/
inductive Exit where
  | normal
  | panic (msg : String)
deriving DecidableEq, Repr

/-- The call `wg.Done()`: the counter goes down by one, and a counter that
would become negative panics. -/
def wgDone (n : Int) : Int × Exit :=
  if n - 1 < 0 then (n - 1, .panic "sync: negative WaitGroup counter") else (n - 1, .normal)

/-- The method `RedisWorker.processJob`: the handler registered for the job
type is called, if there is one; the two deferred calls run on every way out,
the counter first, then `handleWG.Done()`. There is no `recover`, so a panic
of the handler leaves the function as a panic (and a panic of a deferred call
replaces it). -/
def processJob (w : RedisWorker) (job : Job) : RedisWorker × Exit :=
  let body : RedisWorker × Exit :=
    match w.handlers job.Typ with
    | some h =>
      let w1 := { w with calls := w.calls ++ [(h.name, job)] }
      match h.run job with
      | .returned => (w1, .normal)
      | .panicked m => (w1, .panic m)
    | none => (w, .normal)
  let w2 := { body.1 with inFlight := body.1.inFlight - 1 }
  let d := wgDone w2.handleWG
  let w3 := { w2 with handleWG := d.1 }
  match d.2 with
  | .panic m => (w3, .panic m)
  | .normal => (w3, body.2)

/-- The struct `Stats`. -/
structure Stats where
  EnqueuedJobs : Nat
  InFlight : Int
deriving DecidableEq, Repr

/-- The method `RedisWorker.Stats`: `LLEN` of the queue and the counter. -/
def RedisWorker.Stats (llenErr : Option String) (w : RedisWorker) : Except String Stats :=
  match llenErr with
  | some e => .error ("unable to get queue len: " ++ e)
  | none => .ok { EnqueuedJobs := w.queue.length, InFlight := w.inFlight }

/-! ## DequeueLoop and the goroutines -/

/-- Modelled from the spec: `math.Min` of `internal/math` is not among the
sources; the spec has the poller count "capped by a configured maximum", so it
is the smaller of the two ints. -/
def mathMin (a b : Int) : Int := if a < b then a else b

/-- Where a poller goroutine (`dequeueLoop`) stands: before the end of its start
delay, at the `select` at the top of the loop, inside `fetchJob` (the
`default` branch has been taken), or returned. -/
inductive PC where
  | sleeping
  | select
  | fetching
  | exited
deriving DecidableEq, Repr

/-- A goroutine running `dequeueLoop(ctx, i, total)`. -/
structure Poller where
  i : Int
  total : Int
  pc : PC
deriving DecidableEq, Repr

/-- The loop `for i := 1; i <= pollers; i++` of `DequeueLoop`, from the value
`i` on: each round does `loopWG.Add(1)` and starts a poller. -/
def DequeueLoop.loop (pollers : Int) : Nat → Int → RedisWorker × List Poller →
    RedisWorker × List Poller
  | 0, _, st => st
  | fuel + 1, i, st =>
    if i ≤ pollers then
      DequeueLoop.loop pollers fuel (i + 1)
        ({ st.1 with loopWG := st.1.loopWG + 1 },
          st.2 ++ [{ i := i, total := pollers, pc := .sleeping }])
    else st

/-- The method `RedisWorker.DequeueLoop` on a host with `numCPU` processors:
the worker afterwards and the goroutines started. The loop runs at most
`pollers` rounds, which is the fuel it is given. -/
def DequeueLoop (numCPU : Int) (w : RedisWorker) : RedisWorker × List Poller :=
  let pollers := mathMin w.pollMax (numCPU + 1)
  DequeueLoop.loop pollers pollers.toNat 1 (w, [])

/-- The method `Duration.Milliseconds`. -/
def Milliseconds (d : Int) : Int := Int.tdiv d 1000000

/-- The start delay `delayMs` computed by `dequeueLoop`; the integer division
panics when `total` is zero. -/
def delayMs (w : RedisWorker) (i total : Int) : Option Int :=
  if total = 0 then none
  else some (Int.tdiv (Milliseconds w.pollInterval) total * (i - 1))

/-- Where the call of `Stop` stands: not called, blocked in `loopWG.Wait()`,
blocked in `handleWG.Wait()`, or returned. -/
inductive StopPC where
  | idle
  | waitLoop
  | waitHandle
  | returned
deriving DecidableEq, Repr

/-- The process: the worker, its poller goroutines, the `processJob` goroutines
that have been started and have not finished (`running`), whether the context
is cancelled, the call of `Stop`, and the panic that ended the process, if
any. `started` and `finished` count the `go w.processJob` statements executed
and the `processJob` executions completed. -/
structure Sys where
  w : RedisWorker
  pollers : List Poller
  running : List Job
  ctxDone : Bool
  stop : StopPC
  crashed : Option String
  started : Nat
  finished : Nat

/-- One atomic step of one goroutine. -/
inductive Event where
  | wake (k : Nat)
  | select (k : Nat)
  | fetch (k : Nat) (connErr : Option String)
  | finish (k : Nat)
  | cancel
  | enqueue (env : EnqueueEnv) (job : Job)
  | stopCall
  | stopLoopWait
  | stopHandleWait

/-- The poller at position `k`, if it is at `pc`. -/
def Sys.pollerAt (s : Sys) (k : Nat) (pc : PC) : Option Poller :=
  match s.pollers[k]? with
  | some p => if p.pc = pc then some p else none
  | none => none

/-- The poller at position `k` of the list moves to `pc`. -/
def setPCAt : List Poller → Nat → PC → List Poller
  | [], _, _ => []
  | p :: ps, 0, pc => { p with pc := pc } :: ps
  | p :: ps, k + 1, pc => p :: setPCAt ps k pc

/-- The poller at position `k` moves to `pc`. -/
def Sys.setPC (s : Sys) (k : Nat) (pc : PC) : List Poller :=
  setPCAt s.pollers k pc

/-- The step `wake k`: poller `k` computes its delay, sleeps and reaches the
loop; the division by a zero `total` would panic (the deferred
`loopWG.Done()` runs first). -/
def stepWake (k : Nat) (s : Sys) : Option Sys :=
  match s.pollerAt k .sleeping with
  | none => none
  | some p =>
    match delayMs s.w p.i p.total with
    | none =>
      some { s with crashed := some "integer divide by zero",
                    pollers := s.setPC k .exited,
                    w := { s.w with loopWG := (wgDone s.w.loopWG).1 } }
    | some _ => some { s with pollers := s.setPC k .select }

/-- The step `select k`: the `select` of poller `k`. With `closeCh` closed or
the context done one of the two receiving cases is taken and the poller
returns (its deferred `loopWG.Done()` runs); otherwise the `default` case is
taken and the poller is about to call `fetchJob`. -/
def stepSelect (k : Nat) (s : Sys) : Option Sys :=
  match s.pollerAt k .select with
  | none => none
  | some _ =>
    if s.w.closed || s.ctxDone then
      some { s with pollers := s.setPC k .exited,
                    w := { s.w with loopWG := (wgDone s.w.loopWG).1 },
                    crashed := match (wgDone s.w.loopWG).2 with
                      | .panic m => some m
                      | .normal => none }
    else some { s with pollers := s.setPC k .fetching }

/-- The step `fetch k e`: poller `k` runs `fetchJob`, which may start a
`processJob` goroutine, and is back at the `select`. -/
def stepFetch (k : Nat) (connErr : Option String) (s : Sys) : Option Sys :=
  match s.pollerAt k .fetching with
  | none => none
  | some _ =>
    some { s with w := (fetchJob connErr s.w).w,
                  pollers := s.setPC k .select,
                  running := s.running ++ (fetchJob connErr s.w).dispatched.toList,
                  started := s.started + (fetchJob connErr s.w).dispatched.toList.length }

/-- The step `finish k`: the `k`-th running `processJob` runs to its end; a
panic leaving it ends the process. -/
def stepFinish (k : Nat) (s : Sys) : Option Sys :=
  match s.running[k]? with
  | none => none
  | some job =>
    some { s with w := (processJob s.w job).1,
                  running := s.running.eraseIdx k,
                  finished := s.finished + 1,
                  crashed := match (processJob s.w job).2 with
                    | .panic m => some m
                    | .normal => none }

/-- The step `stopCall`: `Stop` is called and executes `close(w.closeCh)`,
which panics on a closed channel; otherwise it goes on to `loopWG.Wait()`. -/
def stepStopCall (s : Sys) : Option Sys :=
  if s.w.closed then some { s with crashed := some "close of closed channel" }
  else some { s with w := { s.w with closed := true }, stop := .waitLoop }

/-- The step relation as a function: `none` when the step is not enabled. A
crashed process takes no step. Besides the steps above: `cancel` cancels the
context, `enqueue` is a call of `Enqueue` by some goroutine, and
`stopLoopWait`, `stopHandleWait` are the returns of the two `Wait()` calls of
`Stop`, which happen only at counter zero. -/
def step (e : Event) (s : Sys) : Option Sys :=
  if s.crashed.isSome then none
  else
    match e with
    | .wake k => stepWake k s
    | .select k => stepSelect k s
    | .fetch k connErr => stepFetch k connErr s
    | .finish k => stepFinish k s
    | .cancel => some { s with ctxDone := true }
    | .enqueue env job => some { s with w := (Enqueue env s.w job).w }
    | .stopCall => stepStopCall s
    | .stopLoopWait =>
      if s.stop = .waitLoop ∧ s.w.loopWG = 0 then some { s with stop := .waitHandle }
      else none
    | .stopHandleWait =>
      if s.stop = .waitHandle ∧ s.w.handleWG = 0 then some { s with stop := .returned }
      else none

/-- A run: the steps of a schedule, taken one after the other. -/
def run : List Event → Sys → Option Sys
  | [], s => some s
  | e :: es, s =>
    match step e s with
    | none => none
    | some s1 => run es s1

/-- The process after start-up: `NewRedisWorker`, the `RegisterHandler` calls
of `regs` in order, then `DequeueLoop`. -/
def boot (queue : List Payload) (pollInterval pollMax : Int)
    (regs : List (JobType × JobHandler × String)) (numCPU : Int) : Sys :=
  let w0 := regs.foldl (fun w r => RegisterHandler w r.1 r.2.1 r.2.2)
    (NewRedisWorker queue pollInterval pollMax)
  let d := DequeueLoop numCPU w0
  { w := d.1, pollers := d.2, running := [], ctxDone := false, stop := .idle,
    crashed := none, started := 0, finished := 0 }

/-- The number of pollers that have not returned. -/
def active (ps : List Poller) : Nat := ps.countP (fun p => p.pc != .exited)

/-- The bookkeeping that every reachable state of the process satisfies: the
wait groups and the counter agree with the goroutines that exist, and the call
of `Stop` has got only as far as they allow. -/
structure Inv (s : Sys) : Prop where
  loop : s.w.loopWG = active s.pollers
  handle : s.w.handleWG = s.running.length
  flight : s.w.inFlight = s.running.length
  count : s.started = s.finished + s.running.length
  closed : s.stop ≠ .idle → s.w.closed = true
  drained : s.stop = .waitHandle ∨ s.stop = .returned → active s.pollers = 0
  done : s.stop = .returned → s.running = []

/-! ## A single caller and a single poller -/

/-- The jobs are passed to `Enqueue` one after the other, each call with its
own environment; the worker after the last call. -/
def enqueueAll (w : RedisWorker) : List (EnqueueEnv × Job) → RedisWorker
  | [] => w
  | (env, job) :: rest => enqueueAll (Enqueue env w job).w rest

/-- One poller calls `fetchJob` the given number of times, with no connection
error and nothing else touching the queue: the worker afterwards and the jobs
handed to `go w.processJob`, in the order of the `go` statements. -/
def fetchN : Nat → RedisWorker → RedisWorker × List Job
  | 0, w => (w, [])
  | n + 1, w =>
    let r := fetchJob none w
    let rest := fetchN n r.w
    (rest.1, r.dispatched.toList ++ rest.2)

/-- The handler calls that `processJob` makes for a job: one, of the handler
registered for the type of the job, or none when there is no such handler. -/
def callsFor (w : RedisWorker) (job : Job) : List (String × Job) :=
  match w.handlers job.Typ with
  | some h => [(h.name, job)]
  | none => []

/-- The results of the `Enqueue` calls of `enqueueAll`, call by call. -/
def enqueueResults (w : RedisWorker) : List (EnqueueEnv × Job) → List EnqueueResult
  | [] => []
  | (env, job) :: rest => Enqueue env w job :: enqueueResults (Enqueue env w job).w rest

/-- The schedule in which poller `k` goes `n` times round its loop without
connection error: the `select`, then `fetchJob`. -/
def fetchRounds (k : Nat) : Nat → List Event
  | 0 => []
  | n + 1 => .select k :: .fetch k none :: fetchRounds k n

/-! ## Sample data -/

/-- A handler that returns. -/
def noopHandler : JobHandler := { name := "noop", run := fun _ => .returned }

/-- A handler that panics. -/
def panicHandler : JobHandler := { name := "boom", run := fun _ => .panicked "boom" }

/-- A worker on an empty queue with `noopHandler` registered for the type
`"launch"` and the argument type `"jobs.LaunchArgs"`. -/
def sampleWorker : RedisWorker :=
  RegisterHandler (NewRedisWorker [] 1000000000 4) "launch" noopHandler "jobs.LaunchArgs"

/-- An environment in which nothing fails. -/
def okEnv : EnqueueEnv :=
  { rand := .ok [1, 2, 3, 4, 5, 6, 7, 8, 9, 10, 11, 12, 13, 14, 15, 16], pushErr := none }

/-- A first job, with an ID. -/
def job1 : Job :=
  { ID := [0, 0, 0, 0, 0, 0, 0x40, 0, 0x80, 0, 0, 0, 0, 0, 0, 1], Typ := "launch",
    Identity := "org-1", AccountID := 7,
    Args := some { typeName := "jobs.LaunchArgs", value := [1] } }

/-- A second job, with another ID. -/
def job2 : Job :=
  { ID := [0, 0, 0, 0, 0, 0, 0x40, 0, 0x80, 0, 0, 0, 0, 0, 0, 2], Typ := "launch",
    Identity := "org-1", AccountID := 7,
    Args := some { typeName := "jobs.LaunchArgs", value := [2] } }

/-- The worker `sampleWorker` with one string on its queue that is no gob
stream. -/
def garbageWorker : RedisWorker :=
  { sampleWorker with queue := [.raw "not a gob stream"] }

/-- A gob stream for a job of type `"launch"` whose `Args` is of a type that
has not been registered. -/
def unregisteredPayload : Payload :=
  .gob { ID := some job1.ID, Typ := some "launch", Identity := none, AccountID := none,
         Args := some { typeName := "jobs.Unknown", value := [] } }

/-- A worker on an empty queue whose handler for `"launch"` panics. -/
def panicWorker : RedisWorker :=
  RegisterHandler (NewRedisWorker [] 1000000000 4) "launch" panicHandler "jobs.LaunchArgs"

/-- A process with one poller (`pollMax` is 1) and an empty queue. -/
def sampleSys : Sys :=
  boot [] 1000000000 1 [("launch", noopHandler, "jobs.LaunchArgs")] 1

/-- A schedule of `sampleSys` in which `Stop` is called while the poller is in
`fetchJob` and returns after the poller has left its loop. -/
def stopSchedule : List Event :=
  [.wake 0, .select 0, .stopCall, .fetch 0 none, .select 0, .stopLoopWait, .stopHandleWait]

/-- A gob stream for a job of a type for which `sampleWorker` has no handler. -/
def orphanPayload : Payload :=
  .gob { ID := some job1.ID, Typ := some "orphan", Identity := none, AccountID := none,
         Args := none }

/-- A process whose only poller is inside `fetchJob`, with `orphanPayload` on
the queue. -/
def orphanSys : Sys :=
  { w := { sampleWorker with queue := [orphanPayload] },
    pollers := [{ i := 1, total := 1, pc := .fetching }],
    running := [], ctxDone := false, stop := .idle, crashed := none,
    started := 0, finished := 0 }

/-- A process in which the `processJob` goroutine for `job1` is running on
`panicWorker`. -/
def panicSys : Sys :=
  { w := { panicWorker with handleWG := 1, inFlight := 1 },
    pollers := [], running := [job1], ctxDone := false, stop := .idle,
    crashed := none, started := 1, finished := 0 }

/-- A process with an empty queue whose only poller is at its `select`. -/
def readySys : Sys :=
  { w := sampleWorker, pollers := [{ i := 1, total := 1, pc := .select }],
    running := [], ctxDone := false, stop := .idle, crashed := none,
    started := 0, finished := 0 }

/-- The job `job2` with the ID that `uuid.NewRandom` makes of the entropy of
`okEnv`. -/
def jobA : Job :=
  { job2 with ID := [1, 2, 3, 4, 5, 6, 71, 8, 137, 10, 11, 12, 13, 14, 15, 16] }

/-- The job `job1` without an ID. -/
def jobB : Job := { job1 with ID := uuidNil }

/-! ## Codec and UUID lemmas -/

/-- Decoding into a zero job what `gobEncode` wrote gives the job back. -/
theorem gobDecode_gobEncode (reg : List String) (job : Job)
    (h : ∀ a, job.Args = some a → a.typeName ∈ reg) :
    ∃ p, gobEncode reg job = .ok p ∧ gobDecode reg Job.zero p = (job, none) := by
  obtain ⟨id, ty, idn, acc, args⟩ := job
  cases args with
  | none =>
    refine ⟨_, rfl, ?_⟩
    simp only [gobDecode, Job.zero]
    by_cases h1 : id = uuidNil <;> by_cases h2 : ty = "" <;> by_cases h3 : idn = "" <;>
      by_cases h4 : acc = 0 <;> simp [h1, h2, h3, h4]
  | some a =>
    have ha : a.typeName ∈ reg := h a rfl
    refine ⟨_, by simp only [gobEncode]; rw [if_pos ha], ?_⟩
    simp only [gobDecode, Job.zero]
    by_cases h1 : id = uuidNil <;> by_cases h2 : ty = "" <;> by_cases h3 : idn = "" <;>
      by_cases h4 : acc = 0 <;> simp [h1, h2, h3, h4, ha]

/-- The byte carrying the version nibble is never zero. -/
theorem version_byte_ne_zero (b : Nat) : (b &&& 0x0f) ||| 0x40 ≠ 0 := by
  intro h
  have h1 := congrArg (fun n => n.testBit 6) h
  simp only [Nat.testBit_or, Nat.zero_testBit, Bool.or_eq_false_iff] at h1
  exact absurd h1.2 (by decide)

/-- A generated UUID is never `uuid.Nil`. -/
theorem NewRandom_ne_nil (rd : Except String (List Nat)) (id : UUID)
    (h : NewRandom rd = .ok id) : id ≠ uuidNil := by
  unfold NewRandom at h
  cases rd with
  | error e => simp at h
  | ok bs =>
    simp only at h
    split_ifs at h with hl
    injection h with h
    intro hn
    have h6 : id[6]? = some 0 := by rw [hn]; rfl
    rw [← h] at h6
    simp [List.getElem?_set, hl] at h6
    exact version_byte_ne_zero _ h6

/-- The three ways in which `Enqueue` fails and the one in which it succeeds,
by the step that decides. -/
theorem Enqueue_cases (env : EnqueueEnv) (w : RedisWorker) (job : Job) :
    (∃ e, assignID env job = .error e ∧
        Enqueue env w job = { job := job, w := w, err := some e }) ∨
    (∃ j e, assignID env job = .ok j ∧ gobEncode w.registered j = .error e ∧
        Enqueue env w job =
          { job := j, w := w, err := some ("unable to encode args: " ++ e) }) ∨
    (∃ j p e, assignID env job = .ok j ∧ gobEncode w.registered j = .ok p ∧
        env.pushErr = some e ∧
        Enqueue env w job =
          { job := j, w := { w with queue := w.queue },
            err := some ("unable to push job into Redis: " ++ e) }) ∨
    (∃ j p, assignID env job = .ok j ∧ gobEncode w.registered j = .ok p ∧
        env.pushErr = none ∧
        Enqueue env w job =
          { job := j, w := { w with queue := p :: w.queue }, err := none }) := by
  cases hj : assignID env job with
  | error e => exact Or.inl ⟨e, rfl, by simp [Enqueue, hj]⟩
  | ok j =>
    right
    cases hp : gobEncode w.registered j with
    | error e => exact Or.inl ⟨j, e, rfl, hp, by simp [Enqueue, hj, hp]⟩
    | ok p =>
      right
      cases he : env.pushErr with
      | some e => exact Or.inl ⟨j, p, e, rfl, hp, rfl, by simp [Enqueue, hj, hp, he, LPush]⟩
      | none => exact Or.inr ⟨j, p, rfl, hp, rfl, by simp [Enqueue, hj, hp, he, LPush]⟩

/-- The job with its ID assigned differs from the job passed in at most in the
ID, which is kept when it was set and is a generated, non-nil one otherwise. -/
theorem assignID_ok (env : EnqueueEnv) (job j : Job) (h : assignID env job = .ok j) :
    j.Typ = job.Typ ∧ j.Identity = job.Identity ∧ j.AccountID = job.AccountID ∧
    j.Args = job.Args ∧ j.ID ≠ uuidNil ∧
    (job.ID ≠ uuidNil → j = job) ∧
    (job.ID = uuidNil → NewRandom env.rand = .ok j.ID) := by
  unfold assignID at h
  by_cases hid : job.ID = uuidNil
  · rw [if_pos hid] at h
    cases hr : NewRandom env.rand with
    | error e => simp [hr] at h
    | ok id =>
      simp only [hr, Except.ok.injEq] at h
      subst h
      exact ⟨rfl, rfl, rfl, rfl, NewRandom_ne_nil _ _ hr, fun hne => absurd hid hne,
        fun _ => rfl⟩
  · rw [if_neg hid] at h
    injection h with h
    subst h
    exact ⟨rfl, rfl, rfl, rfl, hid, fun _ => rfl, fun hn => absurd hn hid⟩

/-- The ID assignment fails exactly when an ID has to be generated and the
generation fails. -/
theorem assignID_error_iff (env : EnqueueEnv) (job : Job) :
    (∃ e, assignID env job = .error e) ↔
      (job.ID = uuidNil ∧ ∃ e, NewRandom env.rand = .error e) := by
  unfold assignID
  by_cases hid : job.ID = uuidNil
  · rw [if_pos hid]
    cases hr : NewRandom env.rand with
    | error e => simp [hid]
    | ok id => simp
  · rw [if_neg hid]
    simp [hid]

/-! ## Enqueue and fetch: order, round trip, ID, errors -/

/-- C1, evaluated on the code: `job1` and then `job2` are enqueued into the
empty queue of `sampleWorker` (both calls succeed, both argument types are
registered) and one poller then fetches twice. `LPush` has put `job2` at the
head, `BLPop` takes from the head, so `job2` is dispatched first and `job1`
second: the reverse of the enqueue order, not FIFO. -/
theorem enqueue_fetch_order_is_reversed :
    (Enqueue okEnv sampleWorker job1).err = none ∧
    (Enqueue okEnv (Enqueue okEnv sampleWorker job1).w job2).err = none ∧
    (fetchN 2 (enqueueAll sampleWorker [(okEnv, job1), (okEnv, job2)])).2 = [job2, job1] ∧
    (fetchN 2 (enqueueAll sampleWorker [(okEnv, job1), (okEnv, job2)])).2 ≠ [job1, job2] := by
  refine ⟨by decide, by decide, by decide, by decide⟩

/-- C2: for every job whose `Args` is nil or of a registered concrete type,
decoding into a zero `Job` (as `fetchJob` does) the payload that `gobEncode`
writes gives the job back; and when `Enqueue` succeeds on such a job, the next
`fetchJob` on that queue decodes its payload without error and hands to
`processJob` a job equal to the enqueued one (the job behind the pointer after
`Enqueue`), whose Type, Identity, AccountID and Args are those passed in and
whose ID is the one passed in unless that was nil. -/
theorem decode_encode_roundtrip (env : EnqueueEnv) (w : RedisWorker) (job : Job)
    (hreg : ∀ a, job.Args = some a → a.typeName ∈ w.registered)
    (hok : (Enqueue env w job).err = none) :
    (∃ p, gobEncode w.registered job = .ok p ∧
        gobDecode w.registered Job.zero p = (job, none)) ∧
    (∃ p rest, (Enqueue env w job).w.queue = p :: rest ∧
        gobDecode (Enqueue env w job).w.registered Job.zero p =
          ((Enqueue env w job).job, none)) ∧
    (fetchJob none (Enqueue env w job).w).dispatched = some (Enqueue env w job).job ∧
    (Enqueue env w job).job.Typ = job.Typ ∧
    (Enqueue env w job).job.Identity = job.Identity ∧
    (Enqueue env w job).job.AccountID = job.AccountID ∧
    (Enqueue env w job).job.Args = job.Args ∧
    (job.ID ≠ uuidNil → (Enqueue env w job).job.ID = job.ID) := by
  refine ⟨gobDecode_gobEncode _ _ hreg, ?_⟩
  rcases Enqueue_cases env w job with ⟨e, _, hE⟩ | ⟨j, e, _, _, hE⟩ | ⟨j, p, e, _, _, _, hE⟩ |
    ⟨j, p, hj, hp, _, hE⟩
  · rw [hE] at hok; simp at hok
  · rw [hE] at hok; simp at hok
  · rw [hE] at hok; simp at hok
  · obtain ⟨h1, h2, h3, h4, _, h6, _⟩ := assignID_ok env job j hj
    have hregj : ∀ a, j.Args = some a → a.typeName ∈ w.registered := by
      intro a ha; exact hreg a (h4 ▸ ha)
    obtain ⟨p1, hp1, hd⟩ := gobDecode_gobEncode w.registered j hregj
    have hpp : p1 = p := by rw [hp] at hp1; injection hp1 with h; exact h.symm
    subst hpp
    rw [hE]
    refine ⟨⟨p1, w.queue, rfl, hd⟩, ?_, h1, h2, h3, h4, fun hne => by rw [h6 hne]⟩
    simp [fetchJob, BLPop, hd]

/-- The statement of C2 at `job1` on `sampleWorker`. -/
theorem decode_encode_roundtrip_witness :
    (fetchJob none (Enqueue okEnv sampleWorker job1).w).dispatched = some job1 :=
  (decode_encode_roundtrip okEnv sampleWorker job1 (by decide) (by decide)).2.2.1

/-- C3: a successful `Enqueue` of a job with the nil ID leaves a generated,
non-nil ID in the job; a non-nil ID is left as it is, on success and on
failure; on success the payload put on the queue is a gob stream carrying
exactly the ID the job now has; Type, Identity, AccountID and Args of the job
are never modified. -/
theorem Enqueue_assigns_ID (env : EnqueueEnv) (w : RedisWorker) (job : Job) :
    (job.ID = uuidNil → (Enqueue env w job).err = none →
        (Enqueue env w job).job.ID ≠ uuidNil ∧
        NewRandom env.rand = .ok (Enqueue env w job).job.ID) ∧
    (job.ID ≠ uuidNil → (Enqueue env w job).job.ID = job.ID) ∧
    ((Enqueue env w job).err = none →
        ∃ m, (Enqueue env w job).w.queue = Payload.gob m :: w.queue ∧
          m.ID = some (Enqueue env w job).job.ID) ∧
    (Enqueue env w job).job.Typ = job.Typ ∧
    (Enqueue env w job).job.Identity = job.Identity ∧
    (Enqueue env w job).job.AccountID = job.AccountID ∧
    (Enqueue env w job).job.Args = job.Args := by
  have key : ∀ j p, assignID env job = .ok j → gobEncode w.registered j = .ok p →
      ∃ m, p = Payload.gob m ∧ m.ID = some j.ID := by
    intro j p hj hp
    have hne := (assignID_ok env job j hj).2.2.2.2.1
    unfold gobEncode at hp
    cases ha : j.Args with
    | none =>
      simp only [ha, if_neg hne, Except.ok.injEq] at hp
      exact ⟨_, hp.symm, rfl⟩
    | some a =>
      simp only [ha] at hp
      by_cases hin : a.typeName ∈ w.registered
      · simp only [if_pos hin, if_neg hne, Except.ok.injEq] at hp
        exact ⟨_, hp.symm, rfl⟩
      · simp [if_neg hin] at hp
  rcases Enqueue_cases env w job with ⟨e, _, hE⟩ | ⟨j, e, hj, _, hE⟩ | ⟨j, p, e, hj, _, _, hE⟩ |
    ⟨j, p, hj, hp, _, hE⟩
  · rw [hE]; simp
  · obtain ⟨h1, h2, h3, h4, _, h6, _⟩ := assignID_ok env job j hj
    rw [hE]
    exact ⟨fun _ h => by simp at h, fun hne => by rw [h6 hne], fun h => by simp at h,
      h1, h2, h3, h4⟩
  · obtain ⟨h1, h2, h3, h4, _, h6, _⟩ := assignID_ok env job j hj
    rw [hE]
    exact ⟨fun _ h => by simp at h, fun hne => by rw [h6 hne], fun h => by simp at h,
      h1, h2, h3, h4⟩
  · obtain ⟨h1, h2, h3, h4, h5, h6, h7⟩ := assignID_ok env job j hj
    obtain ⟨m, hm, hmid⟩ := key j p hj hp
    rw [hE]
    exact ⟨fun hn _ => ⟨h5, h7 hn⟩, fun hne => by rw [h6 hne],
      fun _ => ⟨m, by rw [hm], hmid⟩, h1, h2, h3, h4⟩

/-- The statement of C3 at `job1` without its ID: the generated ID is the
entropy with version and variant stamped in, and it is the ID on the queue. -/
theorem Enqueue_assigns_ID_witness :
    (Enqueue okEnv sampleWorker { job1 with ID := uuidNil }).job.ID ≠ uuidNil ∧
    NewRandom okEnv.rand =
      .ok (Enqueue okEnv sampleWorker { job1 with ID := uuidNil }).job.ID ∧
    (Enqueue okEnv sampleWorker { job1 with ID := uuidNil }).job.ID =
      [1, 2, 3, 4, 5, 6, 71, 8, 137, 10, 11, 12, 13, 14, 15, 16] :=
  ⟨((Enqueue_assigns_ID okEnv sampleWorker { job1 with ID := uuidNil }).1
      (by decide) (by decide)).1,
    ((Enqueue_assigns_ID okEnv sampleWorker { job1 with ID := uuidNil }).1
      (by decide) (by decide)).2, by decide⟩

/-- C4: `Enqueue` returns an error exactly when the UUID generation it needs
fails, or the gob encoding of the job fails, or the push fails; with an error
the worker, its queue included, is what it was before the call; with `nil` the
queue is the old one with one more element at its head, the gob encoding of
the whole job. -/
theorem Enqueue_error_iff (env : EnqueueEnv) (w : RedisWorker) (job : Job) :
    ((Enqueue env w job).err ≠ none ↔
        (job.ID = uuidNil ∧ ∃ e, NewRandom env.rand = .error e) ∨
        (∃ e, gobEncode w.registered (Enqueue env w job).job = .error e) ∨
        env.pushErr ≠ none) ∧
    ((Enqueue env w job).err ≠ none → (Enqueue env w job).w.queue = w.queue) ∧
    ((Enqueue env w job).err = none →
        ∃ p, gobEncode w.registered (Enqueue env w job).job = .ok p ∧
          (Enqueue env w job).w.queue = p :: w.queue ∧
          (Enqueue env w job).w.queue.length = w.queue.length + 1) := by
  rcases Enqueue_cases env w job with ⟨e, hj, hE⟩ | ⟨j, e, hj, hp, hE⟩ |
    ⟨j, p, e, hj, hp, he, hE⟩ | ⟨j, p, hj, hp, he, hE⟩
  · rw [hE]
    refine ⟨⟨fun _ => Or.inl ((assignID_error_iff env job).1 ⟨e, hj⟩), fun _ => by simp⟩,
      fun _ => rfl, fun h => by simp at h⟩
  · rw [hE]
    refine ⟨⟨fun _ => Or.inr (Or.inl ⟨e, hp⟩), fun _ => by simp⟩, fun _ => rfl,
      fun h => by simp at h⟩
  · rw [hE]
    refine ⟨⟨fun _ => Or.inr (Or.inr (by simp [he])), fun _ => by simp⟩, fun _ => rfl,
      fun h => by simp at h⟩
  · rw [hE]
    refine ⟨⟨fun h => by simp at h, ?_⟩, fun h => by simp at h,
      fun _ => ⟨p, hp, rfl, by simp⟩⟩
    rintro (h | ⟨e, h⟩ | h)
    · have := (assignID_error_iff env job).2 h
      rw [hj] at this
      simp at this
    · simp only at h
      rw [hp] at h
      simp at h
    · exact absurd he h

/-! ## The goroutines: bookkeeping lemmas -/

/-- The poller moved by `setPCAt` is found at its position with the new
program counter. -/
theorem setPCAt_getElem? (ps : List Poller) (k : Nat) (pc : PC) (p : Poller)
    (h : ps[k]? = some p) : (setPCAt ps k pc)[k]? = some { p with pc := pc } := by
  induction ps generalizing k with
  | nil => simp at h
  | cons q qs ih =>
    cases k with
    | zero => simp at h; simp [setPCAt, h]
    | succ k => simp at h; simpa [setPCAt] using ih k (by simpa using h)

/-- Moving a poller that has not returned changes the number of active pollers
by one when it returns and not at all otherwise. -/
theorem active_setPCAt (ps : List Poller) (k : Nat) (pc : PC) (p : Poller)
    (h : ps[k]? = some p) (hp : p.pc ≠ .exited) :
    (active (setPCAt ps k pc) : Int) = active ps - (if pc = .exited then 1 else 0) := by
  induction ps generalizing k with
  | nil => simp at h
  | cons q qs ih =>
    cases k with
    | zero =>
      simp at h
      subst h
      by_cases hpc : pc = .exited
      · simp [setPCAt, active, List.countP_cons, hpc, hp]
      · simp [setPCAt, active, List.countP_cons, hpc, hp]
    | succ k =>
      have := ih k (by simpa using h)
      simp only [setPCAt, active, List.countP_cons] at this ⊢
      push_cast
      rw [this]; ring

/-- With no active poller, every poller has returned. -/
theorem active_zero_getElem? (ps : List Poller) (k : Nat) (p : Poller)
    (h0 : active ps = 0) (h : ps[k]? = some p) : p.pc = .exited := by
  have hm : p ∈ ps := List.getElem?_mem h
  unfold active at h0
  rw [List.countP_eq_zero] at h0
  have := h0 p hm
  simpa using this

/-- What `pollerAt` finds. -/
theorem pollerAt_some (s : Sys) (k : Nat) (pc : PC) (p : Poller)
    (h : s.pollerAt k pc = some p) : s.pollers[k]? = some p ∧ p.pc = pc := by
  unfold Sys.pollerAt at h
  cases hg : s.pollers[k]? with
  | none => simp [hg] at h
  | some q =>
    simp only [hg] at h
    split_ifs at h with hq
    injection h with h
    subst h
    exact ⟨rfl, hq⟩

/-- The call `fetchJob` touches the queue, and, when it dispatches, adds one to
`handleWG` and to the counter; nothing else. -/
theorem fetchJob_fields (c : Option String) (w : RedisWorker) :
    (fetchJob c w).w.loopWG = w.loopWG ∧ (fetchJob c w).w.closed = w.closed ∧
    (fetchJob c w).w.handlers = w.handlers ∧ (fetchJob c w).w.calls = w.calls ∧
    (fetchJob c w).w.handleWG = w.handleWG + (fetchJob c w).dispatched.toList.length ∧
    (fetchJob c w).w.inFlight = w.inFlight + (fetchJob c w).dispatched.toList.length := by
  unfold fetchJob BLPop
  cases c with
  | some e => simp
  | none =>
    cases w.queue with
    | nil => simp
    | cons p rest => simp

/-- The call `processJob` takes one from the counter and from `handleWG` on
every way out, and leaves the queue, `loopWG` and `closeCh` alone. -/
theorem processJob_fields (w : RedisWorker) (job : Job) :
    (processJob w job).1.inFlight = w.inFlight - 1 ∧
    (processJob w job).1.handleWG = w.handleWG - 1 ∧
    (processJob w job).1.loopWG = w.loopWG ∧ (processJob w job).1.closed = w.closed ∧
    (processJob w job).1.queue = w.queue := by
  unfold processJob wgDone
  cases w.handlers job.Typ with
  | none => simp only []; split_ifs <;> simp
  | some h =>
    simp only []
    cases h.run job <;> split_ifs <;> simp

/-- The call `Enqueue` touches nothing in the worker but the queue. -/
theorem Enqueue_fields (env : EnqueueEnv) (w : RedisWorker) (job : Job) :
    (Enqueue env w job).w.loopWG = w.loopWG ∧ (Enqueue env w job).w.closed = w.closed ∧
    (Enqueue env w job).w.handleWG = w.handleWG ∧
    (Enqueue env w job).w.inFlight = w.inFlight ∧
    (Enqueue env w job).w.handlers = w.handlers ∧
    (Enqueue env w job).w.calls = w.calls := by
  rcases Enqueue_cases env w job with ⟨e, _, hE⟩ | ⟨j, e, _, _, hE⟩ | ⟨j, p, e, _, _, _, hE⟩ |
    ⟨j, p, _, _, _, hE⟩ <;> rw [hE] <;> simp

/-- The step `wake` keeps the bookkeeping. -/
theorem stepWake_inv (k : Nat) (s s1 : Sys) (hi : Inv s) (h : stepWake k s = some s1) :
    Inv s1 := by
  unfold stepWake at h
  cases hp : s.pollerAt k .sleeping with
  | none => simp [hp] at h
  | some p =>
    obtain ⟨hg, hpc⟩ := pollerAt_some s k _ p hp
    have hne : p.pc ≠ .exited := by rw [hpc]; decide
    have hdr : ¬ (s.stop = .waitHandle ∨ s.stop = .returned) := fun hs =>
      absurd (active_zero_getElem? _ k p (hi.drained hs) hg) hne
    have hdn : s.stop ≠ .returned := fun hs => hdr (Or.inr hs)
    simp only [hp] at h
    cases hd : delayMs s.w p.i p.total with
    | none =>
      simp only [hd, Option.some.injEq] at h
      subst h
      have ha := active_setPCAt s.pollers k .exited p hg hne
      refine ⟨?_, hi.handle, hi.flight, hi.count, hi.closed, fun hs => absurd hs hdr,
        fun hs => absurd hs hdn⟩
      simp only [Sys.setPC, wgDone]
      split_ifs <;> simp only [] <;> rw [ha, hi.loop] <;> simp
    | some d =>
      simp only [hd, Option.some.injEq] at h
      subst h
      have ha := active_setPCAt s.pollers k .select p hg hne
      refine ⟨?_, hi.handle, hi.flight, hi.count, hi.closed, fun hs => absurd hs hdr,
        fun hs => absurd hs hdn⟩
      simp only [Sys.setPC]
      rw [ha, hi.loop]; simp

/-- The step `select` keeps the bookkeeping. -/
theorem stepSelect_inv (k : Nat) (s s1 : Sys) (hi : Inv s) (h : stepSelect k s = some s1) :
    Inv s1 := by
  unfold stepSelect at h
  cases hp : s.pollerAt k .select with
  | none => simp [hp] at h
  | some p =>
    obtain ⟨hg, hpc⟩ := pollerAt_some s k _ p hp
    have hne : p.pc ≠ .exited := by rw [hpc]; decide
    have hdr : ¬ (s.stop = .waitHandle ∨ s.stop = .returned) := fun hs =>
      absurd (active_zero_getElem? _ k p (hi.drained hs) hg) hne
    have hdn : s.stop ≠ .returned := fun hs => hdr (Or.inr hs)
    simp only [hp] at h
    by_cases hcl : (s.w.closed || s.ctxDone) = true
    · rw [if_pos hcl] at h
      injection h with h
      subst h
      have ha := active_setPCAt s.pollers k .exited p hg hne
      refine ⟨?_, hi.handle, hi.flight, hi.count, hi.closed, fun hs => absurd hs hdr,
        fun hs => absurd hs hdn⟩
      simp only [Sys.setPC, wgDone]
      split_ifs <;> simp only [] <;> rw [ha, hi.loop] <;> simp
    · rw [if_neg hcl] at h
      injection h with h
      subst h
      have ha := active_setPCAt s.pollers k .fetching p hg hne
      refine ⟨?_, hi.handle, hi.flight, hi.count, hi.closed, fun hs => absurd hs hdr,
        fun hs => absurd hs hdn⟩
      simp only [Sys.setPC]
      rw [ha, hi.loop]; simp

/-- The step `fetch` keeps the bookkeeping. -/
theorem stepFetch_inv (k : Nat) (c : Option String) (s s1 : Sys) (hi : Inv s)
    (h : stepFetch k c s = some s1) : Inv s1 := by
  unfold stepFetch at h
  cases hp : s.pollerAt k .fetching with
  | none => simp [hp] at h
  | some p =>
    obtain ⟨hg, hpc⟩ := pollerAt_some s k _ p hp
    have hne : p.pc ≠ .exited := by rw [hpc]; decide
    have hdr : ¬ (s.stop = .waitHandle ∨ s.stop = .returned) := fun hs =>
      absurd (active_zero_getElem? _ k p (hi.drained hs) hg) hne
    have hdn : s.stop ≠ .returned := fun hs => hdr (Or.inr hs)
    simp only [hp, Option.some.injEq] at h
    subst h
    obtain ⟨f1, f2, _, _, f5, f6⟩ := fetchJob_fields c s.w
    have ha := active_setPCAt s.pollers k .select p hg hne
    refine ⟨?_, ?_, ?_, ?_, ?_, fun hs => absurd hs hdr, fun hs => absurd hs hdn⟩
    · simp only [Sys.setPC]; rw [f1, ha, hi.loop]; simp
    · simp only []; rw [f5, hi.handle]; simp
    · simp only []; rw [f6, hi.flight]; simp
    · simp only []; rw [hi.count]; simp; ring
    · intro hs; simp only [] at hs ⊢; rw [f2]; exact hi.closed hs

/-- The step `finish` keeps the bookkeeping. -/
theorem stepFinish_inv (k : Nat) (s s1 : Sys) (hi : Inv s)
    (h : stepFinish k s = some s1) : Inv s1 := by
  unfold stepFinish at h
  cases hj : s.running[k]? with
  | none => simp [hj] at h
  | some job =>
    simp only [hj, Option.some.injEq] at h
    subst h
    obtain ⟨f1, f2, f3, f4, _⟩ := processJob_fields s.w job
    have hk : k < s.running.length := by
      by_contra hge
      rw [List.getElem?_eq_none (by omega)] at hj
      simp at hj
    have hlen : (s.running.eraseIdx k).length = s.running.length - 1 := by
      rw [List.length_eraseIdx]; simp [hk]
    refine ⟨?_, ?_, ?_, ?_, ?_, hi.drained, ?_⟩
    · simp only []; rw [f3]; exact hi.loop
    · simp only []; rw [f2, hlen, hi.handle]; omega
    · simp only []; rw [f1, hlen, hi.flight]; omega
    · simp only []; rw [hlen, hi.count]; omega
    · intro hs; simp only [] at hs ⊢; rw [f4]; exact hi.closed hs
    · intro hs
      have := hi.done hs
      rw [this] at hk
      simp at hk
/-- The step `stopCall` keeps the bookkeeping. -/
theorem stepStopCall_inv (s s1 : Sys) (hi : Inv s) (h : stepStopCall s = some s1) :
    Inv s1 := by
  unfold stepStopCall at h
  by_cases hcl : s.w.closed = true
  · rw [if_pos hcl] at h
    injection h with h
    subst h
    exact ⟨hi.loop, hi.handle, hi.flight, hi.count, hi.closed, hi.drained, hi.done⟩
  · rw [if_neg hcl] at h
    injection h with h
    subst h
    refine ⟨hi.loop, hi.handle, hi.flight, hi.count, fun _ => rfl, ?_, ?_⟩
    · intro hs; simp at hs
    · intro hs; simp at hs

/-- Every step keeps the bookkeeping. -/
theorem step_inv (e : Event) (s s1 : Sys) (hi : Inv s) (h : step e s = some s1) : Inv s1 := by
  unfold step at h
  by_cases hc : s.crashed.isSome = true
  · rw [if_pos hc] at h; simp at h
  rw [if_neg hc] at h
  cases e with
  | wake k => exact stepWake_inv k s s1 hi h
  | select k => exact stepSelect_inv k s s1 hi h
  | fetch k c => exact stepFetch_inv k c s s1 hi h
  | finish k => exact stepFinish_inv k s s1 hi h
  | cancel =>
    simp only [Option.some.injEq] at h
    subst h
    exact ⟨hi.loop, hi.handle, hi.flight, hi.count, hi.closed, hi.drained, hi.done⟩
  | enqueue env job =>
    simp only [Option.some.injEq] at h
    subst h
    obtain ⟨f1, f2, f3, f4, _, _⟩ := Enqueue_fields env s.w job
    refine ⟨?_, ?_, ?_, hi.count, ?_, hi.drained, hi.done⟩
    · simp only []; rw [f1]; exact hi.loop
    · simp only []; rw [f3]; exact hi.handle
    · simp only []; rw [f4]; exact hi.flight
    · intro hs; simp only [] at hs ⊢; rw [f2]; exact hi.closed hs
  | stopCall => exact stepStopCall_inv s s1 hi h
  | stopLoopWait =>
    simp only at h
    split_ifs at h with hw
    injection h with h
    subst h
    refine ⟨hi.loop, hi.handle, hi.flight, hi.count, ?_, ?_, ?_⟩
    · intro _; exact hi.closed (by rw [hw.1]; decide)
    · intro _
      have := hi.loop
      rw [hw.2] at this
      exact_mod_cast this.symm
    · intro hs; simp at hs
  | stopHandleWait =>
    simp only at h
    split_ifs at h with hw
    injection h with h
    subst h
    refine ⟨hi.loop, hi.handle, hi.flight, hi.count, ?_, ?_, ?_⟩
    · intro _; exact hi.closed (by rw [hw.1]; decide)
    · intro _; exact hi.drained (Or.inl hw.1)
    · intro _
      have := hi.handle
      rw [hw.2] at this
      exact List.length_eq_zero.1 (by exact_mod_cast this.symm)

/-- Every run keeps the bookkeeping. -/
theorem run_inv (es : List Event) (s s1 : Sys) (hi : Inv s) (h : run es s = some s1) :
    Inv s1 := by
  induction es generalizing s with
  | nil => simp only [run, Option.some.injEq] at h; subst h; exact hi
  | cons e es ih =>
    simp only [run] at h
    cases hs : step e s with
    | none => simp [hs] at h
    | some s2 =>
      simp only [hs] at h
      exact ih s2 (step_inv e s s2 hi hs) h

/-- The loop of `DequeueLoop` adds to `loopWG` what it adds to the active
pollers and touches nothing else that the bookkeeping reads. -/
theorem DequeueLoop_loop_spec (pollers : Int) (fuel : Nat) (i : Int)
    (st : RedisWorker × List Poller) :
    ((DequeueLoop.loop pollers fuel i st).1.loopWG - st.1.loopWG : Int) =
        active (DequeueLoop.loop pollers fuel i st).2 - active st.2 ∧
    (DequeueLoop.loop pollers fuel i st).1.handleWG = st.1.handleWG ∧
    (DequeueLoop.loop pollers fuel i st).1.inFlight = st.1.inFlight ∧
    (DequeueLoop.loop pollers fuel i st).1.closed = st.1.closed := by
  induction fuel generalizing i st with
  | zero => simp [DequeueLoop.loop]
  | succ n ih =>
    simp only [DequeueLoop.loop]
    split_ifs with hle
    · obtain ⟨h1, h2, h3, h4⟩ := ih (i + 1)
        ({ st.1 with loopWG := st.1.loopWG + 1 },
          st.2 ++ [{ i := i, total := pollers, pc := .sleeping }])
      refine ⟨?_, h2, h3, h4⟩
      simp only [active, List.countP_append, List.countP_cons, List.countP_nil] at h1 ⊢
      simp at h1
      omega
    · simp

/-- Registering handlers leaves the wait groups, the counter and `closeCh`
alone. -/
theorem RegisterHandler_foldl_fields (regs : List (JobType × JobHandler × String))
    (w : RedisWorker) :
    (regs.foldl (fun w r => RegisterHandler w r.1 r.2.1 r.2.2) w).loopWG = w.loopWG ∧
    (regs.foldl (fun w r => RegisterHandler w r.1 r.2.1 r.2.2) w).handleWG = w.handleWG ∧
    (regs.foldl (fun w r => RegisterHandler w r.1 r.2.1 r.2.2) w).inFlight = w.inFlight ∧
    (regs.foldl (fun w r => RegisterHandler w r.1 r.2.1 r.2.2) w).closed = w.closed := by
  induction regs generalizing w with
  | nil => simp
  | cons r rs ih =>
    simp only [List.foldl_cons]
    obtain ⟨h1, h2, h3, h4⟩ := ih (RegisterHandler w r.1 r.2.1 r.2.2)
    exact ⟨h1, h2, h3, h4⟩

/-- The process after start-up satisfies the bookkeeping. -/
theorem boot_inv (queue : List Payload) (pollInterval pollMax : Int)
    (regs : List (JobType × JobHandler × String)) (numCPU : Int) :
    Inv (boot queue pollInterval pollMax regs numCPU) := by
  have r := RegisterHandler_foldl_fields regs (NewRedisWorker queue pollInterval pollMax)
  simp only [boot, DequeueLoop]
  generalize regs.foldl (fun w r => RegisterHandler w r.1 r.2.1 r.2.2)
    (NewRedisWorker queue pollInterval pollMax) = w0 at r ⊢
  obtain ⟨r1, r2, r3, r4⟩ := r
  simp only [NewRedisWorker] at r1 r2 r3 r4
  generalize mathMin w0.pollMax (numCPU + 1) = n
  obtain ⟨d1, d2, d3, d4⟩ := DequeueLoop_loop_spec n n.toNat 1 (w0, [])
  simp only [r1, r2, r3, r4, active, List.countP_nil] at d1 d2 d3 d4
  refine ⟨?_, ?_, ?_, rfl, fun h => absurd rfl h, fun h => by simp at h,
    fun h => by simp at h⟩
  · simp only [active]
    push_cast at d1 ⊢
    linarith
  · simp only []; rw [d2]; simp
  · simp only []; rw [d3]; simp
/-! ## Decode failure, missing handler, panicking handler -/

/-- With an element on the queue and no connection error, `fetchJob` takes the
head, decodes it into a zero job and dispatches the result, whether or not the
decoding failed. -/
theorem fetchJob_value (w : RedisWorker) (p : Payload) (rest : List Payload)
    (hq : w.queue = p :: rest) :
    fetchJob none w =
      { w := { w with queue := rest, handleWG := w.handleWG + 1, inFlight := w.inFlight + 1 },
        dispatched := some (gobDecode w.registered Job.zero p).1 } := by
  simp [fetchJob, BLPop, hq]

/-- Without a handler for the job type, `processJob` only runs its two deferred
calls. -/
theorem processJob_no_handler (w : RedisWorker) (job : Job)
    (hnone : w.handlers job.Typ = none) (hwg : 1 ≤ w.handleWG) :
    processJob w job =
      ({ w with inFlight := w.inFlight - 1, handleWG := w.handleWG - 1 }, .normal) := by
  have hlt : ¬ (w.handleWG - 1 < 0) := by omega
  simp [processJob, wgDone, hnone, hlt]

/-- With a handler for the job type, `processJob` calls it once, runs its two
deferred calls, and ends the way the handler ended. -/
theorem processJob_handler (w : RedisWorker) (job : Job) (h : JobHandler)
    (hh : w.handlers job.Typ = some h) (hwg : 1 ≤ w.handleWG) :
    processJob w job =
      ({ w with calls := w.calls ++ [(h.name, job)], inFlight := w.inFlight - 1,
                handleWG := w.handleWG - 1 },
        match h.run job with
        | .returned => .normal
        | .panicked m => .panic m) := by
  have hlt : ¬ (w.handleWG - 1 < 0) := by omega
  cases hr : h.run job <;> simp [processJob, wgDone, hh, hlt, hr]

/-- Erasing the last element of a list that was appended to. -/
theorem eraseIdx_append_singleton (l : List Job) (a : Job) :
    (l ++ [a]).eraseIdx l.length = l := by
  induction l with
  | nil => rfl
  | cons x xs ih => simp only [List.cons_append, List.length_cons, List.eraseIdx_cons_succ, ih]

/-- The poller moved by `setPC` is found by `pollerAt` under its new program
counter. -/
theorem pollerAt_setPC (s s1 : Sys) (k : Nat) (pc : PC) (p : Poller)
    (h : s.pollers[k]? = some p) (h1 : s1.pollers = s.setPC k pc) :
    s1.pollerAt k pc = some { p with pc := pc } := by
  unfold Sys.pollerAt
  rw [h1, Sys.setPC, setPCAt_getElem? _ _ _ _ h]
  simp

/-- C5, evaluated on the code. The queue of `garbageWorker` holds one string
that is no gob stream: decoding it fails, and `fetchJob` still adds one to
`handleWG` and to the in-flight counter (0 becomes 1) and dispatches
`processJob` on the zero job. With a gob stream of type `"launch"` whose
`Args` type is not registered, decoding fails as well, the job dispatched has
the type `"launch"`, and `processJob` calls the handler registered for it. -/
theorem fetchJob_dispatches_undecodable :
    (gobDecode garbageWorker.registered Job.zero (.raw "not a gob stream")).2 ≠ none ∧
    (fetchJob none garbageWorker).dispatched = some Job.zero ∧
    garbageWorker.inFlight = 0 ∧ (fetchJob none garbageWorker).w.inFlight = 1 ∧
    garbageWorker.handleWG = 0 ∧ (fetchJob none garbageWorker).w.handleWG = 1 ∧
    (gobDecode sampleWorker.registered Job.zero unregisteredPayload).2 ≠ none ∧
    (fetchJob none { sampleWorker with queue := [unregisteredPayload] }).dispatched =
      some { Job.zero with ID := job1.ID, Typ := "launch" } ∧
    (processJob (fetchJob none { sampleWorker with queue := [unregisteredPayload] }).w
      { Job.zero with ID := job1.ID, Typ := "launch" }).1.calls =
      [("noop", { Job.zero with ID := job1.ID, Typ := "launch" })] := by
  refine ⟨by decide, by decide, by decide, by decide, by decide, by decide, by decide,
    by decide, by decide⟩

/-- C6: a poller in `fetchJob` takes from the queue a payload that decodes
without error to a job whose type has no handler. The job is dispatched and
the poller is back at its `select`; the `processJob` started for it calls no
handler, leaves the queue as `fetchJob` left it (the job is not put back),
returns normally, so the process goes on, and the in-flight counter (and
`handleWG`) is what it was before the fetch. -/
theorem processJob_missing_handler (s : Sys) (k : Nat) (q : Poller) (p : Payload)
    (rest : List Payload) (job : Job)
    (hc : s.crashed = none) (hk : s.pollerAt k .fetching = some q)
    (hq : s.w.queue = p :: rest)
    (hdec : gobDecode s.w.registered Job.zero p = (job, none))
    (hnone : s.w.handlers job.Typ = none) (hwg : 0 ≤ s.w.handleWG) :
    ∃ s1 s2, step (.fetch k none) s = some s1 ∧
      s1.running = s.running ++ [job] ∧
      s1.pollerAt k .select = some { q with pc := .select } ∧
      (processJob s1.w job).2 = .normal ∧
      (processJob s1.w job).1.calls = s.w.calls ∧
      (processJob s1.w job).1.queue = s1.w.queue ∧
      (processJob s1.w job).1.queue = rest ∧
      (processJob s1.w job).1.inFlight = s.w.inFlight ∧
      (processJob s1.w job).1.handleWG = s.w.handleWG ∧
      step (.finish s.running.length) s1 = some s2 ∧
      s2.w = (processJob s1.w job).1 ∧
      s2.crashed = none ∧
      s2.running = s.running ∧
      s2.pollerAt k .select = some { q with pc := .select } := by
  obtain ⟨hg, _⟩ := pollerAt_some s k _ q hk
  have hf := fetchJob_value s.w p rest hq
  rw [hdec] at hf
  have hs1 : step (.fetch k none) s =
      some { s with w := { s.w with queue := rest, handleWG := s.w.handleWG + 1,
                                    inFlight := s.w.inFlight + 1 },
                    pollers := s.setPC k .select,
                    running := s.running ++ [job],
                    started := s.started + 1 } := by
    simp [step, hc, stepFetch, hk, hf]
  have hp : processJob
      { s.w with queue := rest, handleWG := s.w.handleWG + 1, inFlight := s.w.inFlight + 1 }
      job = ({ s.w with queue := rest }, .normal) := by
    have h1 := processJob_no_handler
      { s.w with queue := rest, handleWG := s.w.handleWG + 1, inFlight := s.w.inFlight + 1 }
      job hnone (by simp only []; omega)
    rw [h1]
    simp
  have hget : (s.running ++ [job])[s.running.length]? = some job := by simp
  have hfin : stepFinish s.running.length
      { s with w := { s.w with queue := rest, handleWG := s.w.handleWG + 1,
                               inFlight := s.w.inFlight + 1 },
               pollers := s.setPC k .select,
               running := s.running ++ [job],
               started := s.started + 1 } =
      some { s with w := { s.w with queue := rest },
                    pollers := s.setPC k .select,
                    running := s.running,
                    started := s.started + 1,
                    finished := s.finished + 1,
                    crashed := none } := by
    simp only [stepFinish, hget, hp, eraseIdx_append_singleton]
  refine ⟨_, { s with w := { s.w with queue := rest },
                        pollers := s.setPC k .select,
                        running := s.running,
                        started := s.started + 1,
                        finished := s.finished + 1,
                        crashed := none },
    hs1, rfl, pollerAt_setPC s _ k .select q hg rfl, ?_, ?_, ?_, ?_, ?_, ?_, ?_,
    ?_, rfl, rfl, pollerAt_setPC s _ k .select q hg rfl⟩
  · rw [hp]
  · rw [hp]
  · rw [hp]
  · rw [hp]
  · rw [hp]
  · rw [hp]
  · simp only [step, hc, Option.isSome_none, Bool.false_eq_true, if_false]
    exact hfin
  · rw [hp]

/-- The statement of C6 at `orphanSys`: the job of type `"orphan"` is fetched
and processed, no handler is called, the counter is back at 0 and the process
is alive. -/
theorem processJob_missing_handler_witness :
    ∃ s1 s2, step (.fetch 0 none) orphanSys = some s1 ∧
      step (.finish 0) s1 = some s2 ∧ s2.crashed = none ∧
      (processJob s1.w { Job.zero with ID := job1.ID, Typ := "orphan" }).1.calls = [] ∧
      (processJob s1.w { Job.zero with ID := job1.ID, Typ := "orphan" }).1.inFlight = 0 := by
  obtain ⟨s1, s2, h1, _, _, _, h5, _, _, h8, _, h10, _, h12, _, _⟩ :=
    processJob_missing_handler orphanSys 0 { i := 1, total := 1, pc := .fetching }
      orphanPayload [] { Job.zero with ID := job1.ID, Typ := "orphan" }
      rfl (by decide) rfl (by decide) rfl (by decide)
  exact ⟨s1, s2, h1, h10, h12, h5, h8⟩

/-! ## In-flight accounting, panics, Stop -/

/-- Only a live process takes a step. -/
theorem step_some_live (e : Event) (s s1 : Sys) (h : step e s = some s1) :
    s.crashed = none := by
  unfold step at h
  cases hc : s.crashed with
  | none => rfl
  | some m => simp [hc] at h

/-- The steps `finish`, `select`, `fetch` and `stopCall` of a live process. -/
theorem step_live (s : Sys) (hc : s.crashed = none) :
    (∀ k, step (.finish k) s = stepFinish k s) ∧
    (∀ k, step (.select k) s = stepSelect k s) ∧
    (∀ k c, step (.fetch k c) s = stepFetch k c s) ∧
    (∀ k, step (.wake k) s = stepWake k s) ∧
    step .stopCall s = stepStopCall s := by
  simp [step, hc]

/-- C7: in every state that the process reaches from start-up, where
`started` is the number of `go w.processJob` statements executed and
`finished` the number of `processJob` executions completed: the counter is 0
at start-up, it equals `started - finished`, which is the number of running
`processJob` goroutines, so it is never negative; with none finished it is
`started` and with all finished it is 0; whenever `Stats` returns a value its
`InFlight` is that number; and the completion of any running `processJob`,
whatever its handler did and whether there was one, takes exactly 1 from
it. -/
theorem inFlight_accounting (queue : List Payload) (pollInterval pollMax : Int)
    (regs : List (JobType × JobHandler × String)) (numCPU : Int)
    (es : List Event) (s : Sys)
    (h : run es (boot queue pollInterval pollMax regs numCPU) = some s) :
    (boot queue pollInterval pollMax regs numCPU).w.inFlight = 0 ∧
    s.w.inFlight = (s.started : Int) - s.finished ∧
    s.w.inFlight = s.running.length ∧
    s.finished ≤ s.started ∧
    0 ≤ s.w.inFlight ∧
    (s.finished = 0 → s.w.inFlight = s.started) ∧
    (s.finished = s.started → s.w.inFlight = 0) ∧
    (∀ c st, s.w.Stats c = .ok st → st.InFlight = (s.started : Int) - s.finished) ∧
    (∀ k s1, step (.finish k) s = some s1 →
      s1.w.inFlight = s.w.inFlight - 1 ∧ s1.finished = s.finished + 1 ∧
      s1.started = s.started) := by
  have hb := boot_inv queue pollInterval pollMax regs numCPU
  have hi := run_inv es _ s hb h
  have hfl := hi.flight
  have hcnt := hi.count
  have hb0 : (boot queue pollInterval pollMax regs numCPU).w.inFlight = 0 := by
    have := hb.flight
    simpa [boot] using this
  refine ⟨hb0, by omega, hfl, by omega, by omega, fun h0 => by omega, fun h0 => by omega,
    ?_, ?_⟩
  · intro c st hst
    cases c with
    | some e => simp [RedisWorker.Stats] at hst
    | none =>
      simp only [RedisWorker.Stats, Except.ok.injEq] at hst
      rw [← hst]
      simp only []
      omega
  · intro k s1 hs
    rw [(step_live s (step_some_live _ s s1 hs)).1 k] at hs
    simp only [stepFinish] at hs
    cases hj : s.running[k]? with
    | none => simp [hj] at hs
    | some job =>
      simp only [hj, Option.some.injEq] at hs
      subst hs
      exact ⟨(processJob_fields s.w job).1, rfl, rfl⟩

/-- The statement of C7 at `sampleSys` after one job has been enqueued and
fetched: one dispatch, none finished, and `Stats` reports one job in
flight. -/
theorem inFlight_accounting_witness :
    ∃ s, run [.enqueue okEnv job1, .wake 0, .select 0, .fetch 0 none] sampleSys = some s ∧
      s.started = 1 ∧ s.finished = 0 ∧ s.w.inFlight = 1 ∧
      s.w.Stats none = .ok { EnqueuedJobs := 0, InFlight := 1 } := by
  have h1 : (run [.enqueue okEnv job1, .wake 0, .select 0, .fetch 0 none] sampleSys).isSome
      = true := by decide
  obtain ⟨s, hs⟩ := Option.isSome_iff_exists.1 h1
  have hv : (run [.enqueue okEnv job1, .wake 0, .select 0, .fetch 0 none] sampleSys).map
      (fun s => (s.started, s.finished, s.w.queue.length)) = some (1, 0, 0) := by decide
  rw [hs] at hv
  simp only [Option.map_some', Option.some.injEq, Prod.mk.injEq] at hv
  obtain ⟨_, h2, _, _, _, h6, _, _, _⟩ :=
    inFlight_accounting [] 1000000000 1 [("launch", noopHandler, "jobs.LaunchArgs")] 1
      [.enqueue okEnv job1, .wake 0, .select 0, .fetch 0 none] s hs
  have hin : s.w.inFlight = 1 := by rw [h6 hv.2.1, hv.1]; rfl
  refine ⟨s, hs, hv.1, hv.2.1, hin, ?_⟩
  simp [RedisWorker.Stats, hin, hv.2.2]

/-- C8 fails on the code: `job1` is enqueued on `panicWorker`, whose handler
for `"launch"` panics, and fetched; `processJob` on it does not complete
normally but leaves as the panic of the handler, and in the process the
completion of that goroutine is a crash after which no poller takes a step. -/
theorem handler_panic_escapes_processJob :
    (fetchJob none (Enqueue okEnv panicWorker job1).w).dispatched = some job1 ∧
    (processJob (fetchJob none (Enqueue okEnv panicWorker job1).w).w job1).2 ≠ .normal ∧
    (processJob (fetchJob none (Enqueue okEnv panicWorker job1).w).w job1).2 = .panic "boom" ∧
    (run [.enqueue okEnv job1, .wake 0, .select 0, .fetch 0 none, .finish 0]
        (boot [] 1000000000 1 [("launch", panicHandler, "jobs.LaunchArgs")] 1)).map
      (fun s => s.crashed) = some (some "boom") ∧
    (run [.enqueue okEnv job1, .wake 0, .select 0, .fetch 0 none, .finish 0, .select 0]
        (boot [] 1000000000 1 [("launch", panicHandler, "jobs.LaunchArgs")] 1)).isNone
      = true := by
  refine ⟨by decide, by decide, by decide, by decide, by decide⟩

/-- C8 as amended: for every handler registered for the type of a running job,
when the `processJob` started for the job runs (after the `Add(1)` of
`fetchJob`), it calls the handler once and its two deferred calls take one from
the in-flight counter and from `handleWG`, whatever the handler does; if the
handler returns, `processJob` returns normally and the process goes on; if the
handler panics, the panic is not recovered: it leaves `processJob`, and the
process is crashed and takes no further step. -/
theorem processJob_handler_outcome (s : Sys) (k : Nat) (job : Job) (hd : JobHandler)
    (hc : s.crashed = none) (hk : s.running[k]? = some job)
    (hh : s.w.handlers job.Typ = some hd) (hwg : 1 ≤ s.w.handleWG) :
    (processJob s.w job).1.calls = s.w.calls ++ [(hd.name, job)] ∧
    (processJob s.w job).1.inFlight = s.w.inFlight - 1 ∧
    (processJob s.w job).1.handleWG = s.w.handleWG - 1 ∧
    (hd.run job = .returned →
      (processJob s.w job).2 = .normal ∧
      ∃ s1, step (.finish k) s = some s1 ∧ s1.crashed = none) ∧
    (∀ m, hd.run job = .panicked m →
      (processJob s.w job).2 = .panic m ∧
      ∃ s1, step (.finish k) s = some s1 ∧ s1.crashed = some m ∧
        s1.w.inFlight = s.w.inFlight - 1 ∧ ∀ e, step e s1 = none) := by
  have hp := processJob_handler s.w job hd hh hwg
  have hst : step (.finish k) s = some { s with
      w := (processJob s.w job).1, running := s.running.eraseIdx k,
      finished := s.finished + 1,
      crashed := match (processJob s.w job).2 with
        | .panic m => some m
        | .normal => none } := by
    rw [(step_live s hc).1 k]
    simp only [stepFinish, hk]
  refine ⟨by rw [hp], by rw [hp], by rw [hp], ?_, ?_⟩
  · intro hr
    have h2 : (processJob s.w job).2 = .normal := by rw [hp, hr]
    refine ⟨h2, _, hst, ?_⟩
    simp only [h2]
  · intro m hr
    have h2 : (processJob s.w job).2 = .panic m := by rw [hp, hr]
    refine ⟨h2, _, hst, ?_, ?_, ?_⟩
    · simp only [h2]
    · simp only [hp]
    · intro e
      simp [step, h2]

/-- The amended C8 at a process whose handler for `"launch"` panics on the
running `job1` (`panicSys`). -/
theorem processJob_handler_outcome_witness :
    ∃ s1, step (.finish 0) panicSys = some s1 ∧
      s1.crashed = some "boom" ∧ s1.w.inFlight = 0 := by
  obtain ⟨_, _, _, _, h5⟩ :=
    processJob_handler_outcome panicSys 0 job1 panicHandler rfl rfl rfl (by decide)
  obtain ⟨_, s1, h1, h2, h3, _⟩ := h5 "boom" rfl
  exact ⟨s1, h1, h2, by rw [h3]; rfl⟩

/-- C9 fails on the code: in `sampleSys`, `Stop` is called and returns after
the poller has left its loop; the second `Stop` call then panics in
`close(w.closeCh)`. -/
theorem second_Stop_panics :
    (run stopSchedule sampleSys).map (fun s => (s.stop, s.w.closed, s.crashed)) =
      some (.returned, true, none) ∧
    (run (stopSchedule ++ [.stopCall]) sampleSys).map (fun s => s.crashed) =
      some (some "close of closed channel") := by
  refine ⟨by decide, by decide⟩

/-- C9 as amended: in every live state that the process reaches from start-up,
a call of `Stop` on a worker whose `closeCh` is open closes it without a panic
and goes on to wait; once `Stop` has been called (and so in particular once it
has returned) `closeCh` is closed, and another call of `Stop` is enabled (it
does not block), panics with "close of closed channel" at its first statement
and changes nothing else: it neither deadlocks nor returns normally. -/
theorem Stop_second_call (queue : List Payload) (pollInterval pollMax : Int)
    (regs : List (JobType × JobHandler × String)) (numCPU : Int)
    (es : List Event) (s : Sys)
    (h : run es (boot queue pollInterval pollMax regs numCPU) = some s)
    (hc : s.crashed = none) :
    (s.w.closed = false →
      ∃ s1, step .stopCall s = some s1 ∧ s1.crashed = none ∧ s1.w.closed = true ∧
        s1.stop = .waitLoop) ∧
    (s.stop ≠ .idle → s.w.closed = true) ∧
    (s.stop ≠ .idle →
      ∃ s1, step .stopCall s = some s1 ∧ s1.crashed = some "close of closed channel" ∧
        s1.stop = s.stop ∧ s1.w.closed = true ∧ s1.pollers = s.pollers ∧
        s1.running = s.running ∧ ∀ e, step e s1 = none) := by
  have hi := run_inv es _ s (boot_inv queue pollInterval pollMax regs numCPU) h
  have hst := (step_live s hc).2.2.2.2
  refine ⟨?_, hi.closed, ?_⟩
  · intro hcl
    refine ⟨{ s with w := { s.w with closed := true }, stop := .waitLoop }, ?_, hc, rfl, rfl⟩
    rw [hst]
    simp [stepStopCall, hcl]
  · intro hs
    have hcl := hi.closed hs
    refine ⟨{ s with crashed := some "close of closed channel" }, ?_, rfl, rfl, hcl, rfl,
      rfl, ?_⟩
    · rw [hst]
      simp [stepStopCall, hcl]
    · intro e
      simp [step]

/-- The amended C9 at `sampleSys` after `stopSchedule`: `Stop` has returned,
and the second call crashes the process. -/
theorem Stop_second_call_witness :
    ∃ s s1, run stopSchedule sampleSys = some s ∧ s.stop = .returned ∧
      step .stopCall s = some s1 ∧ s1.crashed = some "close of closed channel" := by
  have h1 : (run stopSchedule sampleSys).isSome = true := by decide
  obtain ⟨s, hs⟩ := Option.isSome_iff_exists.1 h1
  have hv : (run stopSchedule sampleSys).map (fun s => (s.stop, s.crashed)) =
      some (.returned, none) := by decide
  rw [hs] at hv
  simp only [Option.map_some', Option.some.injEq, Prod.mk.injEq] at hv
  obtain ⟨_, _, h3⟩ :=
    Stop_second_call [] 1000000000 1 [("launch", noopHandler, "jobs.LaunchArgs")] 1
      stopSchedule s hs hv.2
  obtain ⟨s1, h4, h5, _⟩ := h3 (by rw [hv.1]; decide)
  exact ⟨s, s1, hs, hv.1, h4, h5⟩

/-! ## No fetch after stop -/

/-- The pollers after `setPCAt`, position by position. -/
theorem setPCAt_getElem?_eq (ps : List Poller) (k j : Nat) (pc : PC) :
    (setPCAt ps k pc)[j]? =
      if j = k then ps[j]?.map (fun p => { p with pc := pc }) else ps[j]? := by
  induction ps generalizing k j with
  | nil => simp [setPCAt]
  | cons q qs ih =>
    cases k with
    | zero =>
      cases j with
      | zero => simp [setPCAt]
      | succ j => simp [setPCAt]
    | succ k =>
      cases j with
      | zero => simp [setPCAt]
      | succ j => simpa [setPCAt] using ih k j

/-- A step that moves poller `k1` to a program counter other than `fetching`
puts no poller into `fetchJob`. -/
theorem not_fetching_setPCAt (ps : List Poller) (k k1 : Nat) (pc : PC) (p1 : Poller)
    (hpc : pc ≠ .fetching) (h0 : ∀ p, ps[k]? = some p → p.pc ≠ .fetching)
    (h1 : (setPCAt ps k1 pc)[k]? = some p1) : p1.pc ≠ .fetching := by
  rw [setPCAt_getElem?_eq] at h1
  split_ifs at h1 with hk
  · cases hp : ps[k]? with
    | none => simp [hp] at h1
    | some p =>
      simp only [hp, Option.map_some', Option.some.injEq] at h1
      rw [← h1]
      exact hpc
  · exact h0 p1 h1

/-- A poller enters `fetchJob` only by its own `select` step, taken with
`closeCh` open and the context not done. -/
theorem enters_fetching_only_by_select (e : Event) (s s1 : Sys) (k : Nat) (p1 : Poller)
    (hs : step e s = some s1)
    (h0 : ∀ p, s.pollers[k]? = some p → p.pc ≠ .fetching)
    (h1 : s1.pollers[k]? = some p1) (hf : p1.pc = .fetching) :
    e = .select k ∧ s.w.closed = false ∧ s.ctxDone = false := by
  have hc := step_some_live e s s1 hs
  obtain ⟨l1, l2, l3, l4, l5⟩ := step_live s hc
  cases e with
  | wake k1 =>
    rw [l4 k1] at hs
    simp only [stepWake] at hs
    cases hp : s.pollerAt k1 .sleeping with
    | none => simp [hp] at hs
    | some p =>
      simp only [hp] at hs
      cases hd : delayMs s.w p.i p.total with
      | none =>
        simp only [hd, Option.some.injEq] at hs
        subst hs
        exact absurd hf (not_fetching_setPCAt s.pollers k k1 .exited p1 (by decide) h0 h1)
      | some d =>
        simp only [hd, Option.some.injEq] at hs
        subst hs
        exact absurd hf (not_fetching_setPCAt s.pollers k k1 .select p1 (by decide) h0 h1)
  | select k1 =>
    rw [l2 k1] at hs
    simp only [stepSelect] at hs
    cases hp : s.pollerAt k1 .select with
    | none => simp [hp] at hs
    | some p =>
      simp only [hp] at hs
      by_cases hcl : (s.w.closed || s.ctxDone) = true
      · rw [if_pos hcl] at hs
        injection hs with hs
        subst hs
        exact absurd hf (not_fetching_setPCAt s.pollers k k1 .exited p1 (by decide) h0 h1)
      · rw [if_neg hcl] at hs
        injection hs with hs
        subst hs
        simp only [Sys.setPC, setPCAt_getElem?_eq] at h1
        split_ifs at h1 with hk
        · subst hk
          simp only [Bool.or_eq_true, not_or, Bool.not_eq_true] at hcl
          exact ⟨rfl, hcl.1, hcl.2⟩
        · exact absurd hf (h0 p1 h1)
  | fetch k1 c =>
    rw [l3 k1 c] at hs
    simp only [stepFetch] at hs
    cases hp : s.pollerAt k1 .fetching with
    | none => simp [hp] at hs
    | some p =>
      simp only [hp, Option.some.injEq] at hs
      subst hs
      exact absurd hf (not_fetching_setPCAt s.pollers k k1 .select p1 (by decide) h0 h1)
  | finish k1 =>
    rw [l1 k1] at hs
    simp only [stepFinish] at hs
    cases hj : s.running[k1]? with
    | none => simp [hj] at hs
    | some job =>
      simp only [hj, Option.some.injEq] at hs
      subst hs
      exact absurd hf (h0 p1 h1)
  | cancel =>
    simp only [step, hc, Option.isSome_none, Bool.false_eq_true, if_false,
      Option.some.injEq] at hs
    subst hs
    exact absurd hf (h0 p1 h1)
  | enqueue env job =>
    simp only [step, hc, Option.isSome_none, Bool.false_eq_true, if_false,
      Option.some.injEq] at hs
    subst hs
    exact absurd hf (h0 p1 h1)
  | stopCall =>
    rw [l5] at hs
    simp only [stepStopCall] at hs
    split_ifs at hs <;> (injection hs with hs; subst hs; exact absurd hf (h0 p1 h1))
  | stopLoopWait =>
    simp only [step, hc, Option.isSome_none, Bool.false_eq_true, if_false] at hs
    split_ifs at hs
    injection hs with hs
    subst hs
    exact absurd hf (h0 p1 h1)
  | stopHandleWait =>
    simp only [step, hc, Option.isSome_none, Bool.false_eq_true, if_false] at hs
    split_ifs at hs
    injection hs with hs
    subst hs
    exact absurd hf (h0 p1 h1)

/-- C10: in every state that the process reaches from start-up,
(1) once `Stop` has been called (so `closeCh` is closed) or the context is
cancelled, the `select` of any poller makes the poller return: it does not
call `fetchJob`, nothing is taken from the queue and nothing is dispatched;
(2) a poller gets into `fetchJob` only by its own `select` taken while
`closeCh` was open and the context not cancelled, and `fetchJob` runs only for
a poller that got there; and (3) when `Stop` has returned, every poller has
returned, no `processJob` is running (all that were dispatched have
completed), and no `fetchJob` can run any more. -/
theorem no_fetch_after_stop (queue : List Payload) (pollInterval pollMax : Int)
    (regs : List (JobType × JobHandler × String)) (numCPU : Int)
    (es : List Event) (s : Sys)
    (h : run es (boot queue pollInterval pollMax regs numCPU) = some s) :
    (∀ k s1, (s.stop ≠ .idle ∨ s.w.closed = true ∨ s.ctxDone = true) →
      step (.select k) s = some s1 →
      (∃ p, s1.pollers[k]? = some p ∧ p.pc = .exited) ∧ s1.w.queue = s.w.queue ∧
      s1.running = s.running ∧ s1.started = s.started) ∧
    (∀ e k s1 p1, step e s = some s1 →
      (∀ p, s.pollers[k]? = some p → p.pc ≠ .fetching) →
      s1.pollers[k]? = some p1 → p1.pc = .fetching →
      e = .select k ∧ s.w.closed = false ∧ s.ctxDone = false) ∧
    (∀ k c s1, step (.fetch k c) s = some s1 →
      ∃ p, s.pollers[k]? = some p ∧ p.pc = .fetching) ∧
    (s.stop = .returned →
      (∀ p ∈ s.pollers, p.pc = .exited) ∧ s.running = [] ∧ s.started = s.finished ∧
      s.w.inFlight = 0 ∧ ∀ k c, step (.fetch k c) s = none) := by
  have hi := run_inv es _ s (boot_inv queue pollInterval pollMax regs numCPU) h
  refine ⟨?_, ?_, ?_, ?_⟩
  · intro k s1 hsig hs
    have hc := step_some_live _ s s1 hs
    rw [(step_live s hc).2.1 k] at hs
    simp only [stepSelect] at hs
    cases hp : s.pollerAt k .select with
    | none => simp [hp] at hs
    | some p =>
      obtain ⟨hg, _⟩ := pollerAt_some s k _ p hp
      have hcl : (s.w.closed || s.ctxDone) = true := by
        rcases hsig with h1 | h1 | h1
        · simp [hi.closed h1]
        · simp [h1]
        · simp [h1]
      simp only [hp, if_pos hcl, Option.some.injEq] at hs
      subst hs
      exact ⟨⟨_, setPCAt_getElem? _ _ _ _ hg, rfl⟩, rfl, rfl, rfl⟩
  · intro e k s1 p1 hs h0 h1 hf
    exact enters_fetching_only_by_select e s s1 k p1 hs h0 h1 hf
  · intro k c s1 hs
    have hc := step_some_live _ s s1 hs
    rw [(step_live s hc).2.2.1 k c] at hs
    simp only [stepFetch] at hs
    cases hp : s.pollerAt k .fetching with
    | none => simp [hp] at hs
    | some p => exact ⟨p, pollerAt_some s k _ p hp⟩
  · intro hr
    have h0 := hi.drained (Or.inr hr)
    have hrun := hi.done hr
    have hall : ∀ p ∈ s.pollers, p.pc = .exited := by
      intro p hp
      unfold active at h0
      rw [List.countP_eq_zero] at h0
      simpa using h0 p hp
    refine ⟨hall, hrun, ?_, ?_, ?_⟩
    · have := hi.count
      rw [hrun] at this
      simpa using this
    · have := hi.flight
      rw [hrun] at this
      simpa using this
    · intro k c
      cases hst : step (.fetch k c) s with
      | none => rfl
      | some s1 =>
        have hc := step_some_live _ s s1 hst
        rw [(step_live s hc).2.2.1 k c] at hst
        simp only [stepFetch] at hst
        cases hp : s.pollerAt k .fetching with
        | none => simp [hp] at hst
        | some p =>
          obtain ⟨hg, hpc⟩ := pollerAt_some s k _ p hp
          have := hall p (List.getElem?_mem hg)
          rw [hpc] at this
          exact absurd this (by decide)

/-- The statement of C10 at `sampleSys` after `stopSchedule`: `Stop` has
returned, the poller has returned, and no `fetchJob` can run. -/
theorem no_fetch_after_stop_witness :
    ∃ s, run stopSchedule sampleSys = some s ∧ s.stop = .returned ∧
      (∀ p ∈ s.pollers, p.pc = .exited) ∧ s.running = [] ∧
      ∀ k c, step (.fetch k c) s = none := by
  have h1 : (run stopSchedule sampleSys).isSome = true := by decide
  obtain ⟨s, hs⟩ := Option.isSome_iff_exists.1 h1
  have hv : (run stopSchedule sampleSys).map (fun s => s.stop) = some .returned := by decide
  rw [hs] at hv
  simp only [Option.map_some', Option.some.injEq] at hv
  obtain ⟨h2, h3, _, _, h6⟩ :=
    (no_fetch_after_stop [] 1000000000 1 [("launch", noopHandler, "jobs.LaunchArgs")] 1
      stopSchedule s hs).2.2.2 hv
  exact ⟨s, hs, hv, h2, h3, h6⟩

/-! ## The order of dispatch in general -/

/-- A successful `Enqueue` of a job that has an ID and registered arguments
puts at the head of the queue a payload that decodes to that job. -/
theorem Enqueue_push (env : EnqueueEnv) (w : RedisWorker) (job : Job)
    (hpush : env.pushErr = none) (hid : job.ID ≠ uuidNil)
    (hreg : ∀ a, job.Args = some a → a.typeName ∈ w.registered) :
    ∃ p, (Enqueue env w job).w = { w with queue := p :: w.queue } ∧
      gobDecode w.registered Job.zero p = (job, none) := by
  obtain ⟨p, hp, hd⟩ := gobDecode_gobEncode w.registered job hreg
  have ha : assignID env job = .ok job := by simp [assignID, hid]
  refine ⟨p, ?_, hd⟩
  simp [Enqueue, ha, hp, hpush, LPush]

/-- A single poller fetching from a queue whose payloads decode to the jobs
`js` dispatches `js`, head first. -/
theorem fetchN_decodes (w : RedisWorker) (js : List Job)
    (h : List.Forall₂ (fun p j => gobDecode w.registered Job.zero p = (j, none)) w.queue js) :
    (fetchN js.length w).2 = js := by
  induction js generalizing w with
  | nil => rfl
  | cons j js ih =>
    cases hq : w.queue with
    | nil => rw [hq] at h; cases h
    | cons p rest =>
      rw [hq] at h
      cases h with
      | cons hpj hrest =>
        have hf := fetchJob_value w p rest hq
        simp only [List.length_cons, fetchN, hf, hpj, Option.toList_some, List.singleton_append,
          List.cons.injEq, true_and]
        exact ih _ hrest

/-- After the jobs have been enqueued in order, the queue decodes to the jobs
in reverse order, followed by what it decoded to before. -/
theorem enqueueAll_decodes (rand : Except String (List Nat)) (jobs : List Job)
    (w : RedisWorker) (js0 : List Job)
    (hid : ∀ j ∈ jobs, j.ID ≠ uuidNil)
    (hreg : ∀ j ∈ jobs, ∀ a, j.Args = some a → a.typeName ∈ w.registered)
    (h0 : List.Forall₂ (fun p j => gobDecode w.registered Job.zero p = (j, none))
      w.queue js0) :
    (enqueueAll w (jobs.map (fun j => ({ rand := rand, pushErr := none }, j)))).registered
      = w.registered ∧
    List.Forall₂ (fun p j => gobDecode w.registered Job.zero p = (j, none))
      (enqueueAll w (jobs.map (fun j => ({ rand := rand, pushErr := none }, j)))).queue
      (jobs.reverse ++ js0) := by
  induction jobs generalizing w js0 with
  | nil => exact ⟨rfl, h0⟩
  | cons j rest ih =>
    obtain ⟨p, hw, hd⟩ := Enqueue_push { rand := rand, pushErr := none } w j rfl
      (hid j (List.mem_cons_self _ _)) (hreg j (List.mem_cons_self _ _))
    simp only [List.map_cons, enqueueAll, hw, List.reverse_cons, List.append_assoc,
      List.singleton_append]
    exact ih { w with queue := p :: w.queue } (j :: js0)
      (fun x hx => hid x (List.mem_cons_of_mem _ hx))
      (fun x hx => hreg x (List.mem_cons_of_mem _ hx))
      (List.Forall₂.cons hd h0)

/-- Jobs with IDs and registered arguments that are enqueued in order into an
empty queue and then fetched by a single poller are dispatched in the reverse
of the enqueue order. -/
theorem enqueueAll_fetchN_reverse (rand : Except String (List Nat)) (jobs : List Job)
    (w : RedisWorker) (hq : w.queue = [])
    (hid : ∀ j ∈ jobs, j.ID ≠ uuidNil)
    (hreg : ∀ j ∈ jobs, ∀ a, j.Args = some a → a.typeName ∈ w.registered) :
    (fetchN jobs.length
      (enqueueAll w (jobs.map (fun j => ({ rand := rand, pushErr := none }, j))))).2
      = jobs.reverse := by
  obtain ⟨hr, hf⟩ := enqueueAll_decodes rand jobs w [] hid hreg (by rw [hq]; exact .nil)
  rw [List.append_nil, ← hr] at hf
  have := fetchN_decodes _ jobs.reverse hf
  rwa [List.length_reverse] at this

/-! ## The handler registry -/

/-- The call `processJob` adds to the log of handler calls one entry when the
job type has a handler, for that handler and that job, and none otherwise; it
does not touch the handler map. -/
theorem processJob_calls (w : RedisWorker) (job : Job) :
    (processJob w job).1.calls =
      w.calls ++ (match w.handlers job.Typ with
        | some h => [(h.name, job)]
        | none => []) ∧
    (processJob w job).1.handlers = w.handlers := by
  unfold processJob wgDone
  cases w.handlers job.Typ with
  | none => simp only []; split_ifs <;> simp
  | some h =>
    simp only []
    cases h.run job <;> split_ifs <;> simp

/-- C12: after `RegisterHandler(t, h1, a)` followed by `RegisterHandler(t, h2, a)`
the handler of `t` is `h2`, and `processJob` on a job of type `t` makes exactly
one handler call, the call of `h2` on that job, and ends the way `h2` ended
(`h1` plays no part); registering the same `(t, h, a)` a second time leaves the
worker, its handler map and gob's registry included, as it was after the
first time; and the handler of every other type is what it was before, after
one registration and after two. -/
theorem RegisterHandler_last_wins (w : RedisWorker) (t : JobType) (h1 h2 : JobHandler)
    (a : String) (job : Job) (hjt : job.Typ = t) (hwg : 1 ≤ w.handleWG) :
    (RegisterHandler (RegisterHandler w t h1 a) t h2 a).handlers t = some h2 ∧
    (processJob (RegisterHandler (RegisterHandler w t h1 a) t h2 a) job).1.calls =
      w.calls ++ [(h2.name, job)] ∧
    (processJob (RegisterHandler (RegisterHandler w t h1 a) t h2 a) job).2 =
      (match h2.run job with
        | .returned => .normal
        | .panicked m => .panic m) ∧
    RegisterHandler (RegisterHandler w t h1 a) t h1 a = RegisterHandler w t h1 a ∧
    (RegisterHandler (RegisterHandler w t h1 a) t h1 a).handlers =
      (RegisterHandler w t h1 a).handlers ∧
    (∀ u, u ≠ t →
      (RegisterHandler w t h1 a).handlers u = w.handlers u ∧
      (RegisterHandler (RegisterHandler w t h1 a) t h2 a).handlers u = w.handlers u) := by
  have hh : (RegisterHandler (RegisterHandler w t h1 a) t h2 a).handlers job.Typ = some h2 := by
    simp [RegisterHandler, hjt]
  have hidem : RegisterHandler (RegisterHandler w t h1 a) t h1 a = RegisterHandler w t h1 a := by
    have hf : (fun u => if u = t then some h1 else if u = t then some h1 else w.handlers u) =
        (fun u => if u = t then some h1 else w.handlers u) := by
      funext u
      by_cases hu : u = t <;> simp [hu]
    by_cases ha : a ∈ w.registered
    · simp [RegisterHandler, ha, hf]
    · simp [RegisterHandler, ha, hf]
  have hp := processJob_handler (RegisterHandler (RegisterHandler w t h1 a) t h2 a) job h2 hh
    (by simpa [RegisterHandler] using hwg)
  refine ⟨by simp [RegisterHandler], ?_, ?_, hidem, by rw [hidem], ?_⟩
  · rw [hp]
    simp [RegisterHandler]
  · rw [hp]
  · intro u hu
    simp [RegisterHandler, hu]

/-- The statement of C12 at `sampleWorker` with one `processJob` pending: the
panicking handler and then the returning one are registered for `"launch"`,
and `processJob` on `job1` calls the returning one and returns. -/
theorem RegisterHandler_last_wins_witness :
    (processJob (RegisterHandler (RegisterHandler { sampleWorker with handleWG := 1 }
        "launch" panicHandler "jobs.LaunchArgs") "launch" noopHandler "jobs.LaunchArgs")
      job1).1.calls = [("noop", job1)] ∧
    (processJob (RegisterHandler (RegisterHandler { sampleWorker with handleWG := 1 }
        "launch" panicHandler "jobs.LaunchArgs") "launch" noopHandler "jobs.LaunchArgs")
      job1).2 = .normal :=
  ⟨(RegisterHandler_last_wins { sampleWorker with handleWG := 1 } "launch" panicHandler
      noopHandler "jobs.LaunchArgs" job1 rfl (by decide)).2.1,
    (RegisterHandler_last_wins { sampleWorker with handleWG := 1 } "launch" panicHandler
      noopHandler "jobs.LaunchArgs" job1 rfl (by decide)).2.2.1⟩

/-! ## DequeueLoop: the pollers started -/

/-- The loop of `DequeueLoop` from `i` on, when `n` values `i, i+1, ...` are at
most `pollers`: with `n` rounds of fuel or more it runs exactly `n` rounds, each
adding one to `loopWG` and starting the poller with the next index. -/
theorem DequeueLoop_loop_eq (pollers : Int) (n : Nat) (extra : Nat) (i : Int)
    (st : RedisWorker × List Poller) (hn : (pollers - i + 1).toNat = n) :
    DequeueLoop.loop pollers (extra + n) i st =
      ({ st.1 with loopWG := st.1.loopWG + n },
        st.2 ++ (List.range n).map
          (fun (k : Nat) => Poller.mk (i + (k : Int)) pollers .sleeping)) := by
  induction n generalizing i st with
  | zero =>
    have hlt : ¬ i ≤ pollers := by omega
    cases extra with
    | zero => simp [DequeueLoop.loop]
    | succ e => simp [DequeueLoop.loop, hlt]
  | succ n ih =>
    have hle : i ≤ pollers := by omega
    have hn1 : (pollers - (i + 1) + 1).toNat = n := by omega
    have hfuel : extra + (n + 1) = (extra + n) + 1 := rfl
    rw [hfuel]
    simp only [DequeueLoop.loop, if_pos hle]
    rw [ih (i + 1) _ hn1]
    simp only [List.range_succ_eq_map, List.map_cons, List.map_map, List.append_assoc,
      List.singleton_append, Nat.cast_zero, add_zero, Nat.cast_succ]
    refine Prod.ext ?_ ?_
    · simp only []
      congr 1
      ring
    · simp only [List.append_cancel_left_eq, List.cons.injEq, true_and]
      apply List.map_congr_left
      intro k _
      simp only [Function.comp, Nat.cast_succ]
      congr 1
      ring

/-- What `DequeueLoop` does: with `pollers` the value of `math.Min`, it adds
`pollers` (none if that is negative) to `loopWG` and starts the pollers with
the indices from 1 to `pollers`; more fuel changes nothing. -/
theorem DequeueLoop_eq (numCPU : Int) (w : RedisWorker) (extra : Nat) :
    DequeueLoop.loop (mathMin w.pollMax (numCPU + 1))
        (extra + (mathMin w.pollMax (numCPU + 1)).toNat) 1 (w, []) =
      ({ w with loopWG := w.loopWG + (mathMin w.pollMax (numCPU + 1)).toNat },
        (List.range (mathMin w.pollMax (numCPU + 1)).toNat).map
          (fun (k : Nat) => Poller.mk (1 + (k : Int)) (mathMin w.pollMax (numCPU + 1))
            .sleeping)) := by
  rw [DequeueLoop_loop_eq _ _ extra 1 (w, []) (by omega)]
  simp

/-- The pollers `DequeueLoop` starts and the worker it leaves, in closed form. -/
theorem DequeueLoop_closed_form (numCPU : Int) (w : RedisWorker) :
    DequeueLoop numCPU w =
      ({ w with loopWG := w.loopWG + (mathMin w.pollMax (numCPU + 1)).toNat },
        (List.range (mathMin w.pollMax (numCPU + 1)).toNat).map
          (fun (k : Nat) => Poller.mk (1 + (k : Int)) (mathMin w.pollMax (numCPU + 1))
            .sleeping)) := by
  have h := DequeueLoop_eq numCPU w 0
  rw [Nat.zero_add] at h
  exact h

/-- C13 fails on the code for a negative maximum: with `pollMax = -1` on a host
with one processor `DequeueLoop` starts no poller, and 0 pollers are more than
`pollMax`. -/
theorem poller_count_exceeds_negative_pollMax :
    (DequeueLoop 1 (NewRedisWorker [] 1000000000 (-1))).2.length = 0 ∧
    ¬ (((DequeueLoop 1 (NewRedisWorker [] 1000000000 (-1))).2.length : Int) ≤
        (NewRedisWorker [] 1000000000 (-1)).pollMax) := by
  refine ⟨by decide, by decide⟩

/-- C13 as amended: on a host with `c ≥ 1` processors `DequeueLoop` starts
exactly `min(pollMax, c + 1)` pollers when that is not negative and none
otherwise (so none when `pollMax ≤ 0`); their indices are 1, 2, ... up to that
number, each used once, in this order, every poller is given the value of
`math.Min` as its total and starts in its delay; the number of pollers never
exceeds `c + 1` and, when `pollMax ≥ 0`, never exceeds `pollMax`; `loopWG`
grows by exactly the number of pollers started; and the loop needs no more
rounds than that. -/
theorem DequeueLoop_poller_count (numCPU : Int) (w : RedisWorker) (hc : 1 ≤ numCPU) :
    ((DequeueLoop numCPU w).2.length : Int) = max 0 (min w.pollMax (numCPU + 1)) ∧
    (0 ≤ w.pollMax →
      ((DequeueLoop numCPU w).2.length : Int) = min w.pollMax (numCPU + 1)) ∧
    (w.pollMax ≤ 0 → (DequeueLoop numCPU w).2 = []) ∧
    (DequeueLoop numCPU w).2.map (fun p => p.i) =
      (List.range (DequeueLoop numCPU w).2.length).map (fun (k : Nat) => 1 + (k : Int)) ∧
    ((DequeueLoop numCPU w).2.map (fun p => p.i)).Nodup ∧
    (∀ p ∈ (DequeueLoop numCPU w).2,
      p.total = mathMin w.pollMax (numCPU + 1) ∧ p.pc = .sleeping) ∧
    ((DequeueLoop numCPU w).2.length : Int) ≤ numCPU + 1 ∧
    (0 ≤ w.pollMax → ((DequeueLoop numCPU w).2.length : Int) ≤ w.pollMax) ∧
    (DequeueLoop numCPU w).1.loopWG = w.loopWG + (DequeueLoop numCPU w).2.length ∧
    (∀ extra : Nat,
      DequeueLoop.loop (mathMin w.pollMax (numCPU + 1))
        (extra + (mathMin w.pollMax (numCPU + 1)).toNat) 1 (w, []) = DequeueLoop numCPU w) := by
  have hcf := DequeueLoop_closed_form numCPU w
  have hmin : mathMin w.pollMax (numCPU + 1) = min w.pollMax (numCPU + 1) := by
    unfold mathMin
    split_ifs with h
    · exact (min_eq_left (le_of_lt h)).symm
    · exact (min_eq_right (not_lt.1 h)).symm
  have hlen : (DequeueLoop numCPU w).2.length = (mathMin w.pollMax (numCPU + 1)).toNat := by
    rw [hcf]; simp
  have hcast : (((mathMin w.pollMax (numCPU + 1)).toNat : Nat) : Int) =
      max 0 (min w.pollMax (numCPU + 1)) := by
    rw [hmin, Int.toNat_eq_max, max_comm]
  have hl1 : min w.pollMax (numCPU + 1) ≤ numCPU + 1 := min_le_right _ _
  have hl2 : min w.pollMax (numCPU + 1) ≤ w.pollMax := min_le_left _ _
  have hidx : (DequeueLoop numCPU w).2.map (fun p => p.i) =
      (List.range (DequeueLoop numCPU w).2.length).map (fun (k : Nat) => 1 + (k : Int)) := by
    rw [hlen, hcf]
    simp [List.map_map, Function.comp]
  refine ⟨by rw [hlen, hcast], ?_, ?_, hidx, ?_, ?_, ?_, ?_, ?_, ?_⟩
  · intro h0
    rw [hlen, hcast]
    exact max_eq_right (le_min h0 (by omega))
  · intro h0
    have hz : (mathMin w.pollMax (numCPU + 1)).toNat = 0 := by
      rw [hmin]; omega
    rw [hcf, hz]
    rfl
  · rw [hidx]
    refine (List.nodup_range _).map ?_
    intro a b hab
    simp only at hab
    omega
  · intro p hp
    rw [hcf] at hp
    simp only [List.mem_map, List.mem_range] at hp
    obtain ⟨k, _, rfl⟩ := hp
    exact ⟨rfl, rfl⟩
  · rw [hlen, hcast]
    omega
  · intro h0
    rw [hlen, hcast]
    omega
  · rw [hlen, hcf]
  · intro extra
    rw [DequeueLoop_eq numCPU w extra, hcf]

/-- The amended C13 on a host with 8 processors and `pollMax = 4`: four pollers,
with the indices 1 to 4, and `loopWG` is 4. -/
theorem DequeueLoop_poller_count_witness :
    ((DequeueLoop 8 (NewRedisWorker [] 1000000000 4)).2.length : Int) = min 4 (8 + 1) ∧
    (DequeueLoop 8 (NewRedisWorker [] 1000000000 4)).2.map (fun p => p.i) = [1, 2, 3, 4] ∧
    (DequeueLoop 8 (NewRedisWorker [] 1000000000 4)).1.loopWG = 4 :=
  ⟨(DequeueLoop_poller_count 8 (NewRedisWorker [] 1000000000 4) (by decide)).2.1 (by decide),
    by decide, by decide⟩

/-! ## The start delay -/

/-- Every poller that `DequeueLoop` starts has an index between 1 and its
total, whatever value `math.Min` returned. -/
theorem DequeueLoop_index_range (numCPU : Int) (w : RedisWorker) (p : Poller)
    (hp : p ∈ (DequeueLoop numCPU w).2) :
    1 ≤ p.i ∧ p.i ≤ p.total ∧ 1 ≤ p.total ∧ p.total = mathMin w.pollMax (numCPU + 1) := by
  rw [DequeueLoop_closed_form] at hp
  simp only [List.mem_map, List.mem_range] at hp
  obtain ⟨k, hk, rfl⟩ := hp
  have hk1 : ((k : Int)) < mathMin w.pollMax (numCPU + 1) := by omega
  exact ⟨by simp only []; omega, by simp only []; omega, by simp only []; omega, rfl⟩

/-- C14: for every poller that `DequeueLoop` starts, with index `i` and total
`total`, on a worker whose poll interval is `P ≥ 0` milliseconds: `total ≥ 1`
and `1 ≤ i ≤ total`, so the division in `dequeueLoop` is defined and the start
delay is `floor(P / total) * (i - 1)` milliseconds; the delay is not negative,
it is 0 for the first poller, it does not decrease with the index, it is at
most `P - floor(P / total)` and hence at most `P`. -/
theorem start_delay_staggered (numCPU : Int) (w : RedisWorker) (p : Poller)
    (hp : p ∈ (DequeueLoop numCPU w).2)
    (hP : 0 ≤ Milliseconds w.pollInterval) :
    1 ≤ p.total ∧ 1 ≤ p.i ∧ p.i ≤ p.total ∧
    delayMs (DequeueLoop numCPU w).1 p.i p.total =
      some (Int.fdiv (Milliseconds w.pollInterval) p.total * (p.i - 1)) ∧
    0 ≤ Int.fdiv (Milliseconds w.pollInterval) p.total * (p.i - 1) ∧
    (p.i = 1 → delayMs (DequeueLoop numCPU w).1 p.i p.total = some 0) ∧
    (∀ q ∈ (DequeueLoop numCPU w).2, p.i ≤ q.i →
      Int.fdiv (Milliseconds w.pollInterval) p.total * (p.i - 1) ≤
        Int.fdiv (Milliseconds w.pollInterval) q.total * (q.i - 1)) ∧
    Int.fdiv (Milliseconds w.pollInterval) p.total * (p.i - 1) ≤
      Milliseconds w.pollInterval - Int.fdiv (Milliseconds w.pollInterval) p.total ∧
    Int.fdiv (Milliseconds w.pollInterval) p.total * (p.i - 1) ≤
      Milliseconds w.pollInterval := by
  obtain ⟨h1, h2, h3, h4⟩ := DequeueLoop_index_range numCPU w p hp
  have hpi : (DequeueLoop numCPU w).1.pollInterval = w.pollInterval := by
    rw [DequeueLoop_closed_form]
  have ht0 : (0 : Int) ≤ p.total := by omega
  have hne : p.total ≠ 0 := by omega
  have hf : Int.fdiv (Milliseconds w.pollInterval) p.total =
      Milliseconds w.pollInterval / p.total := Int.fdiv_eq_ediv _ ht0
  have ht : Int.tdiv (Milliseconds w.pollInterval) p.total =
      Milliseconds w.pollInterval / p.total := Int.tdiv_eq_ediv hP ht0
  have hd : delayMs (DequeueLoop numCPU w).1 p.i p.total =
      some (Int.fdiv (Milliseconds w.pollInterval) p.total * (p.i - 1)) := by
    simp only [delayMs, if_neg hne, hpi, ht, hf]
  have hq0 : 0 ≤ Milliseconds w.pollInterval / p.total := Int.ediv_nonneg hP ht0
  have hmul : Milliseconds w.pollInterval / p.total * p.total ≤ Milliseconds w.pollInterval :=
    Int.ediv_mul_le _ hne
  have hlast : Milliseconds w.pollInterval / p.total * (p.i - 1) ≤
      Milliseconds w.pollInterval / p.total * (p.total - 1) :=
    Int.mul_le_mul_of_nonneg_left (by omega) hq0
  have hbound : Milliseconds w.pollInterval / p.total * (p.i - 1) ≤
      Milliseconds w.pollInterval - Milliseconds w.pollInterval / p.total := by
    have : Milliseconds w.pollInterval / p.total * (p.total - 1) =
        Milliseconds w.pollInterval / p.total * p.total -
          Milliseconds w.pollInterval / p.total := by ring
    omega
  refine ⟨h3, h1, h2, hd, ?_, ?_, ?_, ?_, ?_⟩
  · rw [hf]
    exact Int.mul_nonneg hq0 (by omega)
  · intro hi
    rw [hd, hi]
    simp
  · intro q hq hle
    obtain ⟨_, _, _, h4q⟩ := DequeueLoop_index_range numCPU w q hq
    rw [h4q, ← h4, hf]
    exact Int.mul_le_mul_of_nonneg_left (by omega) hq0
  · rw [hf]
    exact hbound
  · rw [hf]
    omega

/-- The statement of C14 for the third of four pollers at a poll interval of
one second: the delay is 250 ms times 2. -/
theorem start_delay_staggered_witness :
    delayMs (DequeueLoop 8 (NewRedisWorker [] 1000000000 4)).1 3 4 = some 500 ∧
    Int.fdiv (Milliseconds 1000000000) 4 * (3 - 1) ≤ Milliseconds 1000000000 :=
  ⟨(start_delay_staggered 8 (NewRedisWorker [] 1000000000 4)
      { i := 3, total := 4, pc := .sleeping } (by decide) (by decide)).2.2.2.1,
    (start_delay_staggered 8 (NewRedisWorker [] 1000000000 4)
      { i := 3, total := 4, pc := .sleeping } (by decide) (by decide)).2.2.2.2.2.2.2.2⟩

/-! ## Exactly-once dispatch -/

/-- Enqueuing touches neither the handler map nor the log of handler calls. -/
theorem enqueueAll_fields (w : RedisWorker) (calls : List (EnqueueEnv × Job)) :
    (enqueueAll w calls).handlers = w.handlers ∧ (enqueueAll w calls).calls = w.calls ∧
    (enqueueAll w calls).handleWG = w.handleWG := by
  induction calls generalizing w with
  | nil => exact ⟨rfl, rfl, rfl⟩
  | cons c rest ih =>
    obtain ⟨env, job⟩ := c
    obtain ⟨_, _, f3, _, f5, f6⟩ := Enqueue_fields env w job
    obtain ⟨h1, h2, h3⟩ := ih (Enqueue env w job).w
    exact ⟨by rw [enqueueAll, h1, f5], by rw [enqueueAll, h2, f6], by rw [enqueueAll, h3, f3]⟩

/-- A call of `fetchJob` without connection error takes the head of the queue
away, if there is one. -/
theorem fetchJob_queue (w : RedisWorker) : (fetchJob none w).w.queue = w.queue.tail := by
  unfold fetchJob BLPop
  cases w.queue <;> simp

/-- A poller fetching `n` times takes the first `n` elements from the queue and
dispatches one job for each element taken; the handler map and the log of
handler calls stay as they are, and `handleWG` grows by the number of
dispatches. -/
theorem fetchN_fields (n : Nat) (w : RedisWorker) :
    (fetchN n w).1.queue = w.queue.drop n ∧
    (fetchN n w).2.length = min n w.queue.length ∧
    (fetchN n w).1.handlers = w.handlers ∧ (fetchN n w).1.calls = w.calls ∧
    (fetchN n w).1.handleWG = w.handleWG + (fetchN n w).2.length := by
  induction n generalizing w with
  | zero => simp [fetchN]
  | succ n ih =>
    obtain ⟨h1, h2, h3, h4, h5⟩ := ih (fetchJob none w).w
    obtain ⟨_, _, f3, f4, f5, _⟩ := fetchJob_fields none w
    have hq := fetchJob_queue w
    simp only [fetchN, List.length_append]
    refine ⟨?_, ?_, by rw [h3, f3], by rw [h4, f4], ?_⟩
    · rw [h1, hq, List.drop_tail]
    · rw [h2, hq]
      cases hw : w.queue with
      | nil => simp [fetchJob, BLPop, hw]
      | cons p rest =>
        rw [fetchJob_value w p rest hw]
        simp
        omega
    · rw [h5, f5]
      push_cast
      ring

/-- In a list whose keys are pairwise distinct, exactly one element has the key
of a given element of the list. -/
theorem countP_key_eq_one (key : Job → UUID) (l : List Job)
    (hnd : (l.map key).Nodup) (a : Job) (ha : a ∈ l) :
    l.countP (fun x => key x = key a) = 1 := by
  induction l with
  | nil => cases ha
  | cons x xs ih =>
    rw [List.map_cons, List.nodup_cons] at hnd
    obtain ⟨hx, hxs⟩ := hnd
    rw [List.countP_cons]
    rcases List.mem_cons.1 ha with rfl | hmem
    · have h0 : xs.countP (fun x => key x = key a) = 0 := by
        rw [List.countP_eq_zero]
        intro y hy hk
        have hk1 : key y = key a := of_decide_eq_true hk
        exact hx (hk1 ▸ List.mem_map_of_mem key hy)
      simp [h0]
    · have hne : key x ≠ key a := fun hk => hx (hk ▸ List.mem_map_of_mem key hmem)
      simp [hne, ih hxs hmem]

/-! ## Exactly-once dispatch in the process -/

/-- A run of two schedules one after the other. -/
theorem run_append (es fs : List Event) (s : Sys) :
    run (es ++ fs) s = (run es s).bind (run fs) := by
  induction es generalizing s with
  | nil => rfl
  | cons e es ih =>
    simp only [List.cons_append, run]
    cases step e s with
    | none => rfl
    | some s1 => exact ih s1

/-- The `Enqueue` calls of `enqueueAll`, made one after the other in a live
process, leave the process with the worker of `enqueueAll`. -/
theorem run_enqueue (calls : List (EnqueueEnv × Job)) (s : Sys) (hc : s.crashed = none) :
    run (calls.map (fun c => Event.enqueue c.1 c.2)) s =
      some { s with w := enqueueAll s.w calls } := by
  induction calls generalizing s with
  | nil => rfl
  | cons c rest ih =>
    obtain ⟨env, job⟩ := c
    have hs : step (.enqueue env job) s = some { s with w := (Enqueue env s.w job).w } := by
      simp [step, hc]
    simp only [List.map_cons, run, hs, enqueueAll]
    exact ih { s with w := (Enqueue env s.w job).w } hc

/-- A job that gob encodes has nil arguments or arguments of a registered
type. -/
theorem gobEncode_ok_registered (reg : List String) (job : Job) (p : Payload)
    (h : gobEncode reg job = .ok p) : ∀ a, job.Args = some a → a.typeName ∈ reg := by
  intro a ha
  unfold gobEncode at h
  simp only [ha] at h
  by_contra hn
  rw [if_neg hn] at h
  cases h

/-- A successful `Enqueue` puts at the head of the queue a payload that decodes
to the job as it is after the call, and touches nothing else in the worker. -/
theorem Enqueue_ok (env : EnqueueEnv) (w : RedisWorker) (job : Job)
    (hok : (Enqueue env w job).err = none) :
    ∃ p, (Enqueue env w job).w = { w with queue := p :: w.queue } ∧
      gobDecode w.registered Job.zero p = ((Enqueue env w job).job, none) := by
  rcases Enqueue_cases env w job with ⟨e, _, hE⟩ | ⟨j, e, _, _, hE⟩ | ⟨j, p, e, _, _, _, hE⟩ |
    ⟨j, p, hj, hp, _, hE⟩
  · rw [hE] at hok; simp at hok
  · rw [hE] at hok; simp at hok
  · rw [hE] at hok; simp at hok
  · obtain ⟨p1, hp1, hd⟩ :=
      gobDecode_gobEncode w.registered j (gobEncode_ok_registered _ _ _ hp)
    have hpp : p1 = p := by rw [hp] at hp1; injection hp1 with h; exact h.symm
    subst hpp
    rw [hE]
    exact ⟨p1, rfl, hd⟩

/-- After `Enqueue` calls that all succeed, the queue decodes to the jobs as
enqueued, last first, followed by what it decoded to before. -/
theorem enqueueResults_decodes (calls : List (EnqueueEnv × Job)) (w : RedisWorker)
    (js0 : List Job)
    (hok : ∀ r ∈ enqueueResults w calls, r.err = none)
    (h0 : List.Forall₂ (fun p j => gobDecode w.registered Job.zero p = (j, none))
      w.queue js0) :
    (enqueueAll w calls).registered = w.registered ∧
    List.Forall₂ (fun p j => gobDecode w.registered Job.zero p = (j, none))
      (enqueueAll w calls).queue
      (((enqueueResults w calls).map (fun r => r.job)).reverse ++ js0) := by
  induction calls generalizing w js0 with
  | nil => exact ⟨rfl, h0⟩
  | cons c rest ih =>
    obtain ⟨env, job⟩ := c
    obtain ⟨p, hw, hd⟩ := Enqueue_ok env w job (hok _ (List.mem_cons_self _ _))
    have hreg : (Enqueue env w job).w.registered = w.registered := by rw [hw]
    have hq : (Enqueue env w job).w.queue = p :: w.queue := by rw [hw]
    obtain ⟨i1, i2⟩ := ih (Enqueue env w job).w ((Enqueue env w job).job :: js0)
      (fun r hr => hok r (List.mem_cons_of_mem _ hr))
      (by rw [hreg, hq]; exact List.Forall₂.cons hd h0)
    simp only [enqueueAll, enqueueResults, List.map_cons, List.reverse_cons,
      List.append_assoc, List.singleton_append]
    rw [hreg] at i1 i2
    exact ⟨i1, i2⟩

/-- The results of `enqueueAll` are as many as the calls. -/
theorem enqueueResults_length (calls : List (EnqueueEnv × Job)) (w : RedisWorker) :
    (enqueueResults w calls).length = calls.length := by
  induction calls generalizing w with
  | nil => rfl
  | cons c rest ih =>
    obtain ⟨env, job⟩ := c
    simp only [enqueueResults, List.length_cons, ih]

/-- Enqueuing leaves `closeCh` alone. -/
theorem enqueueAll_closed (w : RedisWorker) (calls : List (EnqueueEnv × Job)) :
    (enqueueAll w calls).closed = w.closed := by
  induction calls generalizing w with
  | nil => rfl
  | cons c rest ih =>
    obtain ⟨env, job⟩ := c
    rw [enqueueAll, ih, (Enqueue_fields env w job).2.1]

/-- A poller fetching leaves `closeCh` alone. -/
theorem fetchN_closed (n : Nat) (w : RedisWorker) : (fetchN n w).1.closed = w.closed := by
  induction n generalizing w with
  | zero => rfl
  | succ n ih =>
    simp only [fetchN]
    rw [ih, (fetchJob_fields none w).2.1]

/-- The `select` of a poller in a live process with `closeCh` open and the
context not cancelled: the poller goes on to `fetchJob`, nothing else
changes. -/
theorem step_select_open (k : Nat) (s : Sys) (q : Poller) (hc : s.crashed = none)
    (hq : s.pollerAt k .select = some q)
    (hopen : s.w.closed = false) (hctx : s.ctxDone = false) :
    ∃ sa, step (.select k) s = some sa ∧ sa.w = s.w ∧ sa.running = s.running ∧
      sa.started = s.started ∧ sa.finished = s.finished ∧ sa.crashed = none ∧
      sa.ctxDone = false ∧ sa.stop = s.stop ∧
      sa.pollerAt k .fetching = some { q with pc := .fetching } := by
  obtain ⟨hg, _⟩ := pollerAt_some s k _ q hq
  refine ⟨{ s with pollers := s.setPC k .fetching }, ?_, rfl, rfl, rfl, rfl, hc, hctx, rfl,
    pollerAt_setPC s _ k .fetching q hg rfl⟩
  rw [(step_live s hc).2.1 k]
  simp [stepSelect, hq, hopen, hctx]

/-- The `fetchJob` of a poller in a live process, without connection error:
the worker is the one `fetchJob` leaves, the job it dispatches, if any, is
started, and the poller is back at its `select`. -/
theorem step_fetch_at (k : Nat) (s : Sys) (q : Poller) (hc : s.crashed = none)
    (hq : s.pollerAt k .fetching = some q) :
    ∃ sb, step (.fetch k none) s = some sb ∧ sb.w = (fetchJob none s.w).w ∧
      sb.running = s.running ++ (fetchJob none s.w).dispatched.toList ∧
      sb.started = s.started + (fetchJob none s.w).dispatched.toList.length ∧
      sb.finished = s.finished ∧ sb.crashed = none ∧ sb.ctxDone = s.ctxDone ∧
      sb.stop = s.stop ∧ sb.pollerAt k .select = some { q with pc := .select } := by
  obtain ⟨hg, _⟩ := pollerAt_some s k _ q hq
  refine ⟨{ s with w := (fetchJob none s.w).w,
                   pollers := s.setPC k .select,
                   running := s.running ++ (fetchJob none s.w).dispatched.toList,
                   started := s.started + (fetchJob none s.w).dispatched.toList.length },
    ?_, rfl, rfl, rfl, rfl, hc, rfl, rfl, pollerAt_setPC s _ k .select q hg rfl⟩
  rw [(step_live s hc).2.2.1 k none]
  simp only [stepFetch, hq]

/-- With `closeCh` open and the context not cancelled, poller `k` at its
`select` goes `n` times round its loop: the worker is the one `fetchN` computes,
the jobs `fetchN` dispatches are started, in that order, and the poller is at
its `select` again; nothing else changes. -/
theorem run_fetchRounds (k n : Nat) (s : Sys) (hc : s.crashed = none)
    (hk : ∃ q, s.pollerAt k .select = some q)
    (hopen : s.w.closed = false) (hctx : s.ctxDone = false) :
    ∃ s1, run (fetchRounds k n) s = some s1 ∧
      s1.w = (fetchN n s.w).1 ∧ s1.running = s.running ++ (fetchN n s.w).2 ∧
      s1.started = s.started + (fetchN n s.w).2.length ∧ s1.finished = s.finished ∧
      s1.crashed = none ∧ s1.ctxDone = false ∧ s1.stop = s.stop ∧
      ∃ q, s1.pollerAt k .select = some q := by
  induction n generalizing s with
  | zero =>
    exact ⟨s, rfl, rfl, by simp [fetchN], by simp [fetchN], rfl, hc, hctx, rfl, hk⟩
  | succ n ih =>
    obtain ⟨q, hq⟩ := hk
    obtain ⟨sa, a1, a2, a3, a4, a5, a6, a7, a8, a9⟩ := step_select_open k s q hc hq hopen hctx
    obtain ⟨sb, b1, b2, b3, b4, b5, b6, b7, b8, b9⟩ := step_fetch_at k sa _ a6 a9
    have hbo : sb.w.closed = false := by
      rw [b2, (fetchJob_fields none sa.w).2.1, a2]; exact hopen
    obtain ⟨s1, h1, h2, h3, h4, h5, h6, h7, h8, h9⟩ := ih sb b6 ⟨_, b9⟩ hbo (by rw [b7, a7])
    refine ⟨s1, ?_, ?_, ?_, ?_, by rw [h5, b5, a5], h6, h7, by rw [h8, b8, a8], h9⟩
    · simp only [fetchRounds, run, a1, b1]
      exact h1
    · rw [h2, b2, a2]
      simp only [fetchN]
    · rw [h3, b3, a3, b2, a2]
      simp only [fetchN, List.append_assoc]
    · rw [h4, b4, a4, b2, a2]
      simp only [fetchN, List.length_append]
      omega

/-- Taking an element out of a list and putting it in front is a
rearrangement of the list. -/
theorem perm_cons_eraseIdx (l : List Job) (k : Nat) (a : Job) (h : l[k]? = some a) :
    (a :: l.eraseIdx k).Perm l := by
  induction l generalizing k with
  | nil => simp at h
  | cons x xs ih =>
    cases k with
    | zero =>
      simp only [List.getElem?_cons_zero, Option.some.injEq] at h
      subst h
      exact List.Perm.refl _
    | succ k =>
      simp only [List.getElem?_cons_succ] at h
      simp only [List.eraseIdx_cons_succ]
      exact (List.Perm.swap x a _).trans ((ih k h).cons x)

/-- The completion of the `k`-th running `processJob` in a live process: the
worker is the one `processJob` leaves, the goroutine is gone, and the process
is crashed exactly when `processJob` ended in a panic. -/
theorem step_finish_at (k : Nat) (s : Sys) (job : Job) (hc : s.crashed = none)
    (hj : s.running[k]? = some job) :
    ∃ sc, step (.finish k) s = some sc ∧ sc.w = (processJob s.w job).1 ∧
      sc.running = s.running.eraseIdx k ∧ sc.started = s.started ∧
      sc.finished = s.finished + 1 ∧
      sc.crashed = (match (processJob s.w job).2 with
        | .panic m => some m
        | .normal => none) := by
  refine ⟨{ s with w := (processJob s.w job).1, running := s.running.eraseIdx k,
                   finished := s.finished + 1,
                   crashed := match (processJob s.w job).2 with
                     | .panic m => some m
                     | .normal => none }, ?_, rfl, rfl, rfl, rfl, rfl⟩
  rw [(step_live s hc).1 k]
  simp only [stepFinish, hj]

/-- A `finish` step is the completion of a running `processJob` of a live
process. -/
theorem step_finish_some (k : Nat) (s sc : Sys) (h : step (.finish k) s = some sc) :
    s.crashed = none ∧ ∃ job, s.running[k]? = some job := by
  have hc := step_some_live _ s sc h
  refine ⟨hc, ?_⟩
  rw [(step_live s hc).1 k] at h
  simp only [stepFinish] at h
  cases hj : s.running[k]? with
  | none => simp [hj] at h
  | some job => exact ⟨job, rfl⟩

/-- Whatever `processJob` goroutines complete, in whatever order: each of them
makes the handler calls of `callsFor` for its job, and the jobs completed
together with those still running are the jobs that were running. -/
theorem run_finish_calls (ks : List Nat) (s s1 : Sys)
    (h : run (ks.map Event.finish) s = some s1) :
    ∃ done : List Job,
      s1.w.calls = s.w.calls ++ done.flatMap (callsFor s.w) ∧
      (done ++ s1.running).Perm s.running ∧ done.length = ks.length ∧
      s1.w.handlers = s.w.handlers ∧ s1.started = s.started ∧
      s1.finished = s.finished + done.length := by
  induction ks generalizing s with
  | nil =>
    simp only [List.map_nil, run, Option.some.injEq] at h
    subst h
    exact ⟨[], by simp, by simp, rfl, rfl, rfl, rfl⟩
  | cons k ks ih =>
    simp only [List.map_cons, run] at h
    cases hs : step (.finish k) s with
    | none => simp [hs] at h
    | some sc =>
      simp only [hs] at h
      obtain ⟨hc, job, hj⟩ := step_finish_some k s sc hs
      obtain ⟨sc1, c1, c2, c3, c4, c5, _⟩ := step_finish_at k s job hc hj
      rw [hs] at c1
      injection c1 with c1
      subst c1
      obtain ⟨done, d1, d2, d3, d4, d5, d6⟩ := ih sc h
      obtain ⟨p1, p2⟩ := processJob_calls s.w job
      have hcf : callsFor sc.w = callsFor s.w := by
        funext x
        simp only [callsFor, c2, p2]
      refine ⟨job :: done, ?_, ?_, by simp [d3], by rw [d4, c2, p2], by rw [d5, c4], ?_⟩
      · rw [d1, hcf, c2, p1, List.flatMap_cons, List.append_assoc]
        rfl
      · rw [c3] at d2
        exact (d2.cons job).trans (perm_cons_eraseIdx _ k job hj)
      · rw [d6, c5, List.length_cons]
        omega

/-- When `handleWG` counts the running `processJob` goroutines and each of
them has a handler that returns on its job, no completion crashes the
process. -/
theorem run_finish_live (ks : List Nat) (s s1 : Sys)
    (h : run (ks.map Event.finish) s = some s1) (hc : s.crashed = none)
    (hwg : s.w.handleWG = s.running.length)
    (hret : ∀ j ∈ s.running, ∃ hd, s.w.handlers j.Typ = some hd ∧ hd.run j = .returned) :
    s1.crashed = none ∧ s1.w.handleWG = s1.running.length := by
  induction ks generalizing s with
  | nil =>
    simp only [List.map_nil, run, Option.some.injEq] at h
    subst h
    exact ⟨hc, hwg⟩
  | cons k ks ih =>
    simp only [List.map_cons, run] at h
    cases hs : step (.finish k) s with
    | none => simp [hs] at h
    | some sc =>
      simp only [hs] at h
      obtain ⟨_, job, hj⟩ := step_finish_some k s sc hs
      obtain ⟨sc1, c1, c2, c3, _, _, c6⟩ := step_finish_at k s job hc hj
      rw [hs] at c1
      injection c1 with c1
      subst c1
      have hmem : job ∈ s.running := List.getElem?_mem hj
      obtain ⟨hd, hh, hr⟩ := hret job hmem
      have hk : k < s.running.length := by
        by_contra hge
        rw [List.getElem?_eq_none (by omega)] at hj
        simp at hj
      have hp := processJob_handler s.w job hd hh (by omega)
      have hlen : (s.running.eraseIdx k).length = s.running.length - 1 := by
        rw [List.length_eraseIdx]; simp [hk]
      refine ih sc h ?_ ?_ ?_
      · rw [c6, hp, hr]
      · rw [c2, c3, hp, hlen]
        simp only []
        omega
      · intro j hjm
        rw [c3] at hjm
        have hj2 : j ∈ s.running :=
          (perm_cons_eraseIdx _ k job hj).subset (List.mem_cons_of_mem _ hjm)
        rw [c2, (processJob_calls s.w job).2]
        exact hret j hj2

/-- Under the same conditions the running `processJob` goroutines can all
complete, one after the other, and the process is alive afterwards. -/
theorem run_finish_all (n : Nat) (s : Sys) (hn : s.running.length = n)
    (hc : s.crashed = none) (hwg : s.w.handleWG = s.running.length)
    (hret : ∀ j ∈ s.running, ∃ hd, s.w.handlers j.Typ = some hd ∧ hd.run j = .returned) :
    ∃ s1, run ((List.replicate n 0).map Event.finish) s = some s1 ∧ s1.running = [] ∧
      s1.crashed = none := by
  induction n generalizing s with
  | zero =>
    exact ⟨s, rfl, List.length_eq_zero.1 hn, hc⟩
  | succ n ih =>
    cases hrun : s.running with
    | nil => rw [hrun] at hn; simp at hn
    | cons j rest =>
      have hj : s.running[0]? = some j := by rw [hrun]; simp
      obtain ⟨sc, c1, c2, c3, _, _, c6⟩ := step_finish_at 0 s j hc hj
      obtain ⟨hd, hh, hr⟩ := hret j (by rw [hrun]; exact List.mem_cons_self _ _)
      have hp := processJob_handler s.w j hd hh (by rw [hwg, hrun]; simp)
      have hrest : sc.running = rest := by rw [c3, hrun]; rfl
      obtain ⟨s1, h1, h2, h3⟩ := ih sc
        (by rw [hrest]; rw [hrun] at hn; simpa using hn)
        (by rw [c6, hp, hr])
        (by
          rw [c2, hrest, hp]
          simp only []
          rw [hwg, hrun]
          simp)
        (fun x hx => by
          rw [hrest] at hx
          rw [c2, (processJob_calls s.w j).2]
          exact hret x (by rw [hrun]; exact List.mem_cons_of_mem _ hx))
      refine ⟨s1, ?_, h2, h3⟩
      simp only [List.replicate_succ, List.map_cons, run, c1]
      exact h1

/-- For jobs that all have a handler, the handler calls of `callsFor` are one
per job, in the order of the jobs, each the call of the handler registered for
the type of its job. -/
theorem flatMap_callsFor (w : RedisWorker) (l : List Job)
    (hh : ∀ j ∈ l, ∃ hd, w.handlers j.Typ = some hd) :
    (l.flatMap (callsFor w)).map (fun c => c.2) = l ∧
    ∀ c ∈ l.flatMap (callsFor w), ∃ hd, w.handlers c.2.Typ = some hd ∧ c.1 = hd.name := by
  induction l with
  | nil => simp
  | cons x xs ih =>
    obtain ⟨hd, hx⟩ := hh x (List.mem_cons_self _ _)
    obtain ⟨i1, i2⟩ := ih (fun j hj => hh j (List.mem_cons_of_mem _ hj))
    have hxc : callsFor w x = [(hd.name, x)] := by simp only [callsFor, hx]
    refine ⟨?_, ?_⟩
    · simp only [List.flatMap_cons, hxc, List.singleton_append, List.map_cons, i1]
    · intro c hc
      simp only [List.flatMap_cons, hxc, List.singleton_append, List.mem_cons] at hc
      rcases hc with rfl | hc
      · exact ⟨hd, hx, rfl⟩
      · exact i2 c hc

/-- C11 fails on the code in two ways. (1) With a handler for `"launch"` that
panics, `job1` and `job2` are enqueued and both fetched by the one poller; the
first `processJob` to run calls the handler and the panic ends the process:
one handler call has been made, not two, the other `processJob` is still
pending and no further step is possible. (2) `jobA` has an ID and `jobB` has
none, so their IDs are distinct; `Enqueue` gives `jobB` a generated ID, which
with the entropy of `okEnv` is the ID of `jobA`: both jobs are dispatched and
the handler is called twice for that one ID. -/
theorem dispatch_count_fails :
    (run [.enqueue okEnv job1, .enqueue okEnv job2, .wake 0, .select 0, .fetch 0 none,
          .select 0, .fetch 0 none, .finish 0]
        (boot [] 1000000000 1 [("launch", panicHandler, "jobs.LaunchArgs")] 1)).map
      (fun s => (s.w.queue.length, s.w.calls.length, s.running.length, s.crashed)) =
      some (0, 1, 1, some "boom") ∧
    (run [.enqueue okEnv job1, .enqueue okEnv job2, .wake 0, .select 0, .fetch 0 none,
          .select 0, .fetch 0 none, .finish 0, .finish 0]
        (boot [] 1000000000 1 [("launch", panicHandler, "jobs.LaunchArgs")] 1)).isNone
      = true ∧
    ([jobA, jobB].map (fun j => j.ID)).Nodup ∧
    (run ([.enqueue okEnv jobA, .enqueue okEnv jobB] ++ fetchRounds 0 2 ++
          [.finish 0, .finish 0]) readySys).map
      (fun s => (s.w.calls.map (fun c => c.2.ID), s.running.length, s.crashed)) =
      some ([jobA.ID, jobA.ID], 0, none) := by
  refine ⟨by decide, by decide, by decide, by decide⟩

/-- C11 as amended. In a live process with an empty queue, no `processJob`
running, `closeCh` open, the context not cancelled and poller `k` at its
`select`, `n` `Enqueue` calls are made that all succeed, for jobs whose IDs as
enqueued (a nil ID is replaced by a generated one) are pairwise distinct and
whose type has a handler that returns on them. Then the queue holds `n`
elements; poller `k` going `n` times round its loop empties it and starts one
`processJob` for each enqueued job (last enqueued first), `n` in all; these can
all run to their end; and whenever they have all completed, in whatever order,
the process is alive and exactly `n` handler calls have been made, one for
each enqueued job, each the call of the handler registered for the type of its
job, so exactly one for each enqueued ID. Moreover, in any live process a
`fetchJob` step that finds an element takes exactly that one element from the
queue and starts exactly one `processJob`, for the job decoded from it, before
the poller is back at its `select`. -/
theorem exactly_once_dispatch (s : Sys) (k : Nat) (q : Poller)
    (calls : List (EnqueueEnv × Job))
    (hc : s.crashed = none) (hq : s.w.queue = []) (hrun : s.running = [])
    (hwg : s.w.handleWG = 0) (hk : s.pollerAt k .select = some q)
    (hopen : s.w.closed = false) (hctx : s.ctxDone = false)
    (hok : ∀ r ∈ enqueueResults s.w calls, r.err = none)
    (hnd : ((enqueueResults s.w calls).map (fun r => r.job.ID)).Nodup)
    (hh : ∀ r ∈ enqueueResults s.w calls,
      ∃ hd, s.w.handlers r.job.Typ = some hd ∧ hd.run r.job = .returned) :
    (∃ s1 s2,
      run (calls.map (fun c => Event.enqueue c.1 c.2)) s = some s1 ∧
      s1.w.queue.length = calls.length ∧
      run (fetchRounds k calls.length) s1 = some s2 ∧
      s2.w.queue = [] ∧ s2.crashed = none ∧
      s2.running = ((enqueueResults s.w calls).map (fun r => r.job)).reverse ∧
      s2.started = s.started + calls.length ∧
      (∃ s3, run ((List.replicate calls.length 0).map Event.finish) s2 = some s3 ∧
        s3.running = [] ∧ s3.crashed = none) ∧
      (∀ (ks : List Nat) (s3 : Sys), run (ks.map Event.finish) s2 = some s3 →
        s3.running = [] →
        s3.crashed = none ∧ s3.finished = s.finished + calls.length ∧
        ∃ new : List (String × Job),
          s3.w.calls = s.w.calls ++ new ∧ new.length = calls.length ∧
          (new.map (fun c => c.2)).Perm ((enqueueResults s.w calls).map (fun r => r.job)) ∧
          (∀ c ∈ new, ∃ hd, s.w.handlers c.2.Typ = some hd ∧ c.1 = hd.name) ∧
          (∀ r ∈ enqueueResults s.w calls,
            new.countP (fun c => c.2.ID = r.job.ID) = 1))) ∧
    (∀ (t : Sys) (i : Nat) (pl : Poller) (p : Payload) (rest : List Payload),
      t.crashed = none → t.pollerAt i .fetching = some pl → t.w.queue = p :: rest →
      ∃ t1, step (.fetch i none) t = some t1 ∧ t1.w.queue = rest ∧
        t1.w.queue.length + 1 = t.w.queue.length ∧
        t1.running = t.running ++ [(gobDecode t.w.registered Job.zero p).1] ∧
        t1.started = t.started + 1 ∧
        t1.pollerAt i .select = some { pl with pc := .select }) := by
  refine ⟨?_, ?_⟩
  · -- the enqueue phase
    have he := run_enqueue calls s hc
    obtain ⟨hr, hf⟩ := enqueueResults_decodes calls s.w [] hok (by rw [hq]; exact .nil)
    obtain ⟨e1, e2, e3⟩ := enqueueAll_fields s.w calls
    have e4 := enqueueAll_closed s.w calls
    rw [List.append_nil] at hf
    have hrl := enqueueResults_length calls s.w
    generalize hjs : (enqueueResults s.w calls).map (fun r => r.job) = js at hf ⊢
    have hjl : js.length = calls.length := by rw [← hjs, List.length_map, hrl]
    have hql : (enqueueAll s.w calls).queue.length = calls.length := by
      rw [hf.length_eq, List.length_reverse, hjl]
    have hmemjs : ∀ j ∈ js, ∃ r ∈ enqueueResults s.w calls, r.job = j := by
      intro j hj
      rw [← hjs] at hj
      obtain ⟨r, hr1, hr2⟩ := List.mem_map.1 hj
      exact ⟨r, hr1, hr2⟩
    have hndjs : (js.map (fun x => x.ID)).Nodup := by
      rw [← hjs, List.map_map]
      exact hnd
    -- the fetch phase
    have hfd : (fetchN calls.length (enqueueAll s.w calls)).2 = js.reverse := by
      have := fetchN_decodes (enqueueAll s.w calls) js.reverse (by rw [hr]; exact hf)
      rwa [List.length_reverse, hjl] at this
    obtain ⟨f1, f2, f3, f4, f5⟩ := fetchN_fields calls.length (enqueueAll s.w calls)
    obtain ⟨s2, g1, g2, g3, g4, g5, g6, g7, g8, g9⟩ :=
      run_fetchRounds k calls.length { s with w := enqueueAll s.w calls } hc ⟨q, hk⟩
        (by simp only []; rw [e4]; exact hopen) hctx
    simp only [] at g2 g3 g4 g5
    rw [hrun, List.nil_append, hfd] at g3
    rw [hfd, List.length_reverse, hjl] at g4
    have hs2q : s2.w.queue = [] := by
      rw [g2, f1, ← hql, List.drop_length]
    have hs2h : s2.w.handlers = s.w.handlers := by rw [g2, f3, e1]
    have hs2c : s2.w.calls = s.w.calls := by rw [g2, f4, e2]
    have hs2wg : s2.w.handleWG = s2.running.length := by
      rw [g2, f5, e3, hwg, hfd, g3]
      simp
    have hs2ret : ∀ j ∈ s2.running,
        ∃ hd, s2.w.handlers j.Typ = some hd ∧ hd.run j = .returned := by
      intro j hj
      rw [g3, List.mem_reverse] at hj
      obtain ⟨r, hr1, hr2⟩ := hmemjs j hj
      rw [hs2h, ← hr2]
      exact hh r hr1
    have hs2len : s2.running.length = calls.length := by
      rw [g3, List.length_reverse, hjl]
    refine ⟨{ s with w := enqueueAll s.w calls }, s2, he, hql, g1, hs2q, g6, g3, g4,
      run_finish_all calls.length s2 hs2len g6 hs2wg hs2ret, ?_⟩
    -- the completions
    intro ks s3 hks hempty
    obtain ⟨done, d1, d2, d3, d4, d5, d6⟩ := run_finish_calls ks s2 s3 hks
    obtain ⟨l1, _⟩ := run_finish_live ks s2 s3 hks g6 hs2wg hs2ret
    rw [hempty, List.append_nil] at d2
    have hperm : done.Perm js := by
      rw [g3] at d2
      exact d2.trans (List.reverse_perm js)
    have hdl : done.length = calls.length := by rw [hperm.length_eq, hjl]
    have hcfn : callsFor s2.w = callsFor s.w := by
      funext x
      simp only [callsFor, hs2h]
    obtain ⟨m1, m2⟩ := flatMap_callsFor s.w done (fun j hj => by
      obtain ⟨r, hr1, hr2⟩ := hmemjs j (hperm.mem_iff.1 hj)
      obtain ⟨hd, hd1, _⟩ := hh r hr1
      exact ⟨hd, hr2 ▸ hd1⟩)
    refine ⟨l1, by rw [d6, g5, hdl], done.flatMap (callsFor s.w), ?_, ?_, ?_, m2, ?_⟩
    · rw [d1, hs2c, hcfn]
    · have := congrArg List.length m1
      rw [List.length_map] at this
      rw [this, hdl]
    · rw [m1]
      exact hperm
    · intro r hr1
      have hcount : ∀ cs : List (String × Job), cs.countP (fun c => c.2.ID = r.job.ID) =
          (cs.map (fun c => c.2)).countP (fun x => x.ID = r.job.ID) := by
        intro cs
        rw [List.countP_map]
        rfl
      rw [hcount, m1, hperm.countP_eq]
      exact countP_key_eq_one (fun x => x.ID) js hndjs r.job
        (by rw [← hjs]; exact List.mem_map_of_mem _ hr1)
  · intro t i pl p rest htc hti htq
    obtain ⟨hg, _⟩ := pollerAt_some t i _ pl hti
    have hfv := fetchJob_value t.w p rest htq
    refine ⟨_, by simp [step, htc, stepFetch, hti, hfv]; rfl, rfl, by simp [htq], rfl, rfl,
      pollerAt_setPC t _ i .select pl hg rfl⟩

/-- The amended C11 at `readySys` with `job1` and `job2`: both are enqueued,
fetched and started, last enqueued first; both `processJob` goroutines run to
their end, the process is alive and two handler calls have been made. -/
theorem exactly_once_dispatch_witness :
    ∃ s2 s3,
      run ([.enqueue okEnv job1, .enqueue okEnv job2] ++ fetchRounds 0 2) readySys = some s2 ∧
      s2.running = [job2, job1] ∧ s2.w.queue = [] ∧
      run [.finish 0, .finish 0] s2 = some s3 ∧ s3.running = [] ∧ s3.crashed = none ∧
      s3.w.calls.length = 2 := by
  have hok : ∀ r ∈ enqueueResults readySys.w [(okEnv, job1), (okEnv, job2)], r.err = none := by
    intro r hr
    simp only [enqueueResults, List.mem_cons, List.mem_singleton, List.not_mem_nil,
      or_false] at hr
    rcases hr with rfl | rfl
    · decide
    · decide
  have hh : ∀ r ∈ enqueueResults readySys.w [(okEnv, job1), (okEnv, job2)],
      ∃ hd, readySys.w.handlers r.job.Typ = some hd ∧ hd.run r.job = .returned := by
    intro r hr
    simp only [enqueueResults, List.mem_cons, List.mem_singleton, List.not_mem_nil,
      or_false] at hr
    rcases hr with rfl | rfl
    · exact ⟨noopHandler, rfl, rfl⟩
    · exact ⟨noopHandler, rfl, rfl⟩
  obtain ⟨⟨s1, s2, h1, _, h3, h4, _, h6, _, ⟨s3, h8, h9, h10⟩, h11⟩, _⟩ :=
    exactly_once_dispatch readySys 0 { i := 1, total := 1, pc := .select }
      [(okEnv, job1), (okEnv, job2)] rfl rfl rfl (by decide) (by decide) rfl rfl
      hok (by decide) hh
  obtain ⟨_, _, new, n1, n2, _⟩ := h11 [0, 0] s3 h8 h9
  refine ⟨s2, s3, ?_, ?_, h4, h8, h9, h10, ?_⟩
  · rw [run_append]
    simp only [List.map_cons, List.map_nil] at h1
    rw [h1]
    exact h3
  · rw [h6]
    decide
  · rw [n1, List.length_append, n2]
    rfl

end Worker
